import Mathlib

/-!
Verification of the Pickomino solver core (src/solver.ts).

The TypeScript solver is shallowly embedded: dice counts, scores and bit masks
become `Nat`, the two quantities that can go negative in JavaScript
(`nDiceNow`, `newRemaining`) become `Int`, and all probabilities / expected
values become `ℚ` (JavaScript computes them in floating point; the claims are
stated over the exact rational values, as the specification itself sanctions).
The recursive value function is defined with an explicit fuel argument
(`fuel = remainingDice + 1` suffices, proved below by a fuel-irrelevance
lemma), because every recursive call strictly decreases `remainingDice`.
-/

namespace Pickomino

/-- A tile (src/types.ts `Target`): threshold `value`, reward `pts`,
whether a higher score may still claim it. -/
structure Target where
  value : Nat
  pts : Nat
  canOvershoot : Bool
deriving DecidableEq, Repr

/-- The two solver modes (`SolverMode` in src/solver.ts). -/
inductive SolverMode where
  | anyTile
  | highestScore
deriving DecidableEq, Repr

/-- `buildDefaultTargets` from src/solver.ts: tiles 21..36 with banded points. -/
def buildDefaultTargets : List Target :=
  (List.range' 21 16).map fun v =>
    { value := v
      pts := if 33 ≤ v then 4 else if 29 ≤ v then 3 else if 25 ≤ v then 2 else 1
      canOvershoot := true }

/-- `faceValue` from src/solver.ts: face 6 (the worm) scores 5. -/
def faceValue (face : Nat) : Nat :=
  if face = 6 then 5 else face

/-- `computeCurrentScore` from src/solver.ts. The JavaScript object iteration
over the used-count record is modelled as iteration over the six faces, the
domain of the spec's `UsedFaceRecord`. -/
def computeCurrentScore (usedCounts : Nat → Nat) : Nat :=
  ([1, 2, 3, 4, 5, 6].map fun f => faceValue f * usedCounts f).sum

/-- The comparator `(a, b) => b.value - a.value || b.pts - a.pts`:
`a` may come before `b` iff value descending, ties by points descending. -/
def tileLe (a b : Target) : Bool :=
  b.value < a.value || (b.value == a.value && b.pts ≤ a.pts)

/-- Stable insertion of a tile into a list sorted by `tileLe`. -/
def insertTile (a : Target) : List Target → List Target
  | [] => [a]
  | b :: l => if tileLe a b then a :: b :: l else b :: insertTile a l

/-- Stable insertion sort by `tileLe`; JavaScript's `Array.prototype.sort` is
stable, and any two stable sorts with the same comparator agree, so this
models the `elig.sort(...)` call. -/
def sortTiles : List Target → List Target
  | [] => []
  | a :: l => insertTile a (sortTiles l)

/-- `findEligibleTiles` from src/solver.ts: filter by threshold rule, then
sort descending by value, ties by points. -/
def findEligibleTiles (score : Nat) (targets : List Target) : List Target :=
  sortTiles (targets.filter fun t =>
    if t.canOvershoot then decide (t.value ≤ score) else decide (score = t.value))

/-- The worm test `(usedMask & (1 << (6 - 1))) !== 0`. -/
def hasWorm (usedMask : Nat) : Bool :=
  (usedMask &&& (1 <<< 5)) != 0

/-- `isSuccess` from src/solver.ts (closure over `targets`). -/
def isSuccess (targets : List Target) (score usedMask : Nat) : Bool :=
  if hasWorm usedMask then decide (0 < (findEligibleTiles score targets).length) else false

/-- `getBestTileValue` from src/solver.ts: points of the head of the sorted
eligible list, `0` without a worm or with no eligible tile. -/
def getBestTileValue (targets : List Target) (score usedMask : Nat) : Nat :=
  if hasWorm usedMask then
    match findEligibleTiles score targets with
    | [] => 0
    | t :: _ => t.pts
  else 0

/-- The terminal payoff `mode === ANY_TILE ? 1.0 : getBestTileValue(...)`. -/
def terminalPayoff (targets : List Target) (mode : SolverMode) (score usedMask : Nat) : ℚ :=
  match mode with
  | .anyTile => 1
  | .highestScore => (getBestTileValue targets score usedMask : ℚ)

/-- `genCountVectors`' recursive composition generator, indexed by how many
faces are still to fill (`facesLeft = faces - pos`): at the last position the
whole remainder is placed, otherwise each count `k ≤ remaining` is tried in
ascending order. -/
def genVecsAux : Nat → Nat → List (List Nat)
  | 0, _ => []
  | 1, remaining => [[remaining]]
  | facesLeft + 2, remaining =>
      (List.range (remaining + 1)).flatMap fun k =>
        (genVecsAux (facesLeft + 1) (remaining - k)).map fun v => k :: v

/-- `genCountVectors(n, 6)` from src/solver.ts. -/
def genCountVectors (n : Nat) : List (List Nat) :=
  genVecsAux 6 n

/-- The multinomial weight loop: `ways = fact(n)` then `ways /= fact(counts[f])`
for each face. -/
def waysQ (n : Nat) (counts : List Nat) : ℚ :=
  counts.foldl (fun w c => w / (Nat.factorial c : ℚ)) (Nat.factorial n : ℚ)

/-- `pRoll = ways / totalOutcomes` with `totalOutcomes = 6 ** n`. -/
def pRollQ (n : Nat) (counts : List Nat) : ℚ :=
  waysQ n counts / (6 ^ n : ℚ)

/-- The `outcomeValue` computed for one legal face inside `probSuccess`:
terminal payoff on an immediate success, `0` when no dice remain, otherwise
the recursive value (`F` stands for the recursive call). -/
def outcomeOf (targets : List Target) (mode : SolverMode) (F : Nat → Nat → Nat → ℚ)
    (n score usedMask cnt face : Nat) : ℚ :=
  let newScore := score + faceValue face * cnt
  let newUsedMask := usedMask ||| (1 <<< (face - 1))
  let newRemaining := n - cnt
  if isSuccess targets newScore newUsedMask then
    terminalPayoff targets mode newScore newUsedMask
  else if newRemaining = 0 then 0
  else F newRemaining newScore newUsedMask

/-- One iteration of the per-face loop inside `probSuccess`. The state is
`(anyLegal, bestPickValueForThisRoll)`; the source's two mode branches
perform the identical strict-max update, written once here. -/
def pickStep (targets : List Target) (mode : SolverMode) (F : Nat → Nat → Nat → ℚ)
    (n score usedMask : Nat) (counts : List Nat) (st : Bool × ℚ) (face : Nat) : Bool × ℚ :=
  let cnt := counts.getD (face - 1) 0
  if cnt = 0 then st
  else if (usedMask &&& (1 <<< (face - 1))) != 0 then st
  else
    let o := outcomeOf targets mode F n score usedMask cnt face
    (true, if st.2 < o then o else st.2)

/-- The per-face loop of `probSuccess` over faces 1..6. -/
def bestPick (targets : List Target) (mode : SolverMode) (F : Nat → Nat → Nat → ℚ)
    (n score usedMask : Nat) (counts : List Nat) : Bool × ℚ :=
  [1, 2, 3, 4, 5, 6].foldl (pickStep targets mode F n score usedMask counts) (false, 0)

/-- One iteration of the outer loop of `probSuccess` over count vectors:
`totalValue += pRoll * bestPickValueForThisRoll` when some pick was legal. -/
def rollStep (targets : List Target) (mode : SolverMode) (F : Nat → Nat → Nat → ℚ)
    (n score usedMask : Nat) (totalValue : ℚ) (counts : List Nat) : ℚ :=
  let pRoll := pRollQ n counts
  let st := bestPick targets mode F n score usedMask counts
  if st.1 then totalValue + pRoll * st.2 else totalValue

/-- The body of `probSuccess` from src/solver.ts, with an explicit fuel
argument; every recursive call strictly decreases `remainingDice`, so
`fuel = remainingDice + 1` reproduces the TypeScript recursion (proved by
`value_fuel_irrel`). -/
def value (targets : List Target) (mode : SolverMode) : Nat → Nat → Nat → Nat → ℚ
  | 0, _, _, _ => 0
  | fuel + 1, remainingDice, score, usedMask =>
    if isSuccess targets score usedMask then terminalPayoff targets mode score usedMask
    else if remainingDice = 0 then 0
    else
      (genCountVectors remainingDice).foldl
        (rollStep targets mode (value targets mode fuel) remainingDice score usedMask) 0

/-- `probSuccess(remainingDice, score, usedMask)` from src/solver.ts. -/
def probSuccess (targets : List Target) (mode : SolverMode)
    (remainingDice score usedMask : Nat) : ℚ :=
  value targets mode (remainingDice + 1) remainingDice score usedMask

/-- The roll counter built at the top of `solve`: entries outside 1..6 are
silently skipped by the guard `if (r >= 1 && r <= 6)`. -/
def rollCounter (rolls : List Nat) (f : Nat) : Nat :=
  (rolls.filter fun r => 1 ≤ r && r ≤ 6).count f

/-- `baseUsedMask`: bit `f - 1` is set when face `f` has a positive used count. -/
def baseUsedMask (usedCounts : Nat → Nat) : Nat :=
  [1, 2, 3, 4, 5, 6].foldl
    (fun m f => if 0 < usedCounts f then m ||| (1 <<< (f - 1)) else m) 0

/-- `nDiceNow = 8 - sum(usedCounts)`; in JavaScript this can go negative, so
it is an `Int` here. -/
def nDiceNow (usedCounts : Nat → Nat) : Int :=
  (8 : Int) - (([1, 2, 3, 4, 5, 6].map fun f => usedCounts f).sum : Nat)

/-- The legality test of the per-face loop in `solve`: the face occurs in the
roll and its bit is not set in the base used mask. -/
def legalFace (rolls : List Nat) (usedCounts : Nat → Nat) (f : Nat) : Bool :=
  0 < rollCounter rolls f && (baseUsedMask usedCounts &&& (1 <<< (f - 1))) == 0

/-- The value computed for face `f` in the per-face loop of `solve`.
A negative `newRemaining` (possible in JavaScript when the inputs reference
more than eight dice) makes `probSuccess` enumerate no count vectors and
return `0` in an unsuccessful state, which is exactly `probSuccess` at zero
dice, hence the `Int.toNat`. -/
def faceEval (rolls : List Nat) (targets : List Target) (usedCounts : Nat → Nat)
    (mode : SolverMode) (f : Nat) : ℚ :=
  let count := rollCounter rolls f
  let newScore := computeCurrentScore usedCounts + faceValue f * count
  let newUsedMask := baseUsedMask usedCounts ||| (1 <<< (f - 1))
  let newRemaining : Int := nDiceNow usedCounts - count
  if isSuccess targets newScore newUsedMask then
    terminalPayoff targets mode newScore newUsedMask
  else if newRemaining = 0 then 0
  else probSuccess targets mode newRemaining.toNat newScore newUsedMask

/-- The per-face entry stored in `choices` by `solve`. -/
structure Choice where
  count : Nat
  immediateScore : Nat
  remainingDice : Int
  successProb : ℚ
  expectedValue : Option ℚ
deriving DecidableEq, Repr

/-- The `choices[f]` record built in the per-face loop of `solve`;
`successProb` is the display value `mode === ANY_TILE ? value : value > 0 ? 1 : 0`
and `expectedValue` is only present in highest-score mode. -/
def mkChoiceOf (rolls : List Nat) (usedCounts : Nat → Nat)
    (mode : SolverMode) (f : Nat) (v : ℚ) : Choice :=
  { count := rollCounter rolls f
    immediateScore := computeCurrentScore usedCounts + faceValue f * rollCounter rolls f
    remainingDice := nDiceNow usedCounts - rollCounter rolls f
    successProb := match mode with
      | .anyTile => v
      | .highestScore => if 0 < v then 1 else 0
    expectedValue := match mode with
      | .anyTile => none
      | .highestScore => some v }

def mkChoice (rolls : List Nat) (targets : List Target) (usedCounts : Nat → Nat)
    (mode : SolverMode) (f : Nat) : Choice :=
  mkChoiceOf rolls usedCounts mode f (faceEval rolls targets usedCounts mode f)

/-- The mutable state of the per-face loop in `solve`: the `probs` and
`choices` records (modelled as functions from face to optional entry) and the
running `(bestFace, bestValue)` pair. -/
structure LoopState where
  probs : Nat → Option ℚ
  choices : Nat → Option Choice
  best : Option Nat × ℚ

/-- One iteration of the per-face loop of `solve` (faces already used or
absent from the roll are skipped; `bestFace` is updated on strict
improvement). -/
def faceStep (rolls : List Nat) (targets : List Target) (usedCounts : Nat → Nat)
    (mode : SolverMode) (st : LoopState) (f : Nat) : LoopState :=
  if legalFace rolls usedCounts f then
    let v := faceEval rolls targets usedCounts mode f
    { probs := fun g => if g = f then some v else st.probs g
      choices := fun g => if g = f then some (mkChoice rolls targets usedCounts mode f)
        else st.choices g
      best := if st.best.2 < v then (some f, v) else st.best }
  else st

/-- The result record of `solve` (the human-readable `report` string, pure
diagnostics, is not modelled). -/
structure SolverResult where
  bestFace : Option Nat
  probs : Nat → Option ℚ
  choices : Nat → Option Choice
  mode : SolverMode

/-- `solve` from src/solver.ts: evaluate every legal face of the visible roll
and return the per-face statistics and the best face. -/
def solve (rolls : List Nat) (targets : List Target) (usedCounts : Nat → Nat)
    (mode : SolverMode) : SolverResult :=
  let final := [1, 2, 3, 4, 5, 6].foldl (faceStep rolls targets usedCounts mode)
    ⟨fun _ => none, fun _ => none, (none, -1)⟩
  { bestFace := final.best.1
    probs := final.probs
    choices := final.choices
    mode := mode }

/-! ### The memoized evaluator, modelled explicitly

In src/solver.ts the recursion is memoized through `probMemo`, a `Map`
allocated afresh inside every call to `solve` and keyed by
`remainingDice|score|usedMask|mode`.  The following definitions model that
mutable map as an association list threaded through the computation in
exactly the order the TypeScript code reads and writes it (newest entry
first; `memoFind` returns the first match). -/

/-- The memo key `remainingDice|score|usedMask|mode`. -/
abbrev MemoKey := Nat × Nat × Nat × SolverMode

/-- The memoization map `probMemo`. -/
abbrev Memo := List (MemoKey × ℚ)

def memoFind (memo : Memo) (k : MemoKey) : Option ℚ :=
  (memo.find? fun e => decide (e.1 = k)).map fun e => e.2

/-- Memoized counterpart of `outcomeOf`. -/
def outcomeOfM (targets : List Target) (mode : SolverMode)
    (FM : Nat → Nat → Nat → Memo → ℚ × Memo)
    (n score usedMask cnt face : Nat) (memo : Memo) : ℚ × Memo :=
  let newScore := score + faceValue face * cnt
  let newUsedMask := usedMask ||| (1 <<< (face - 1))
  let newRemaining := n - cnt
  if isSuccess targets newScore newUsedMask then
    (terminalPayoff targets mode newScore newUsedMask, memo)
  else if newRemaining = 0 then (0, memo)
  else FM newRemaining newScore newUsedMask memo

/-- Memoized counterpart of `pickStep`; the state also carries the memo. -/
def pickStepM (targets : List Target) (mode : SolverMode)
    (FM : Nat → Nat → Nat → Memo → ℚ × Memo) (n score usedMask : Nat) (counts : List Nat)
    (st : Bool × ℚ × Memo) (face : Nat) : Bool × ℚ × Memo :=
  let cnt := counts.getD (face - 1) 0
  if cnt = 0 then st
  else if (usedMask &&& (1 <<< (face - 1))) != 0 then st
  else
    let o := outcomeOfM targets mode FM n score usedMask cnt face st.2.2
    (true, if st.2.1 < o.1 then o.1 else st.2.1, o.2)

/-- Memoized counterpart of `bestPick`. -/
def bestPickM (targets : List Target) (mode : SolverMode)
    (FM : Nat → Nat → Nat → Memo → ℚ × Memo) (n score usedMask : Nat) (counts : List Nat)
    (memo : Memo) : Bool × ℚ × Memo :=
  [1, 2, 3, 4, 5, 6].foldl (pickStepM targets mode FM n score usedMask counts)
    (false, 0, memo)

/-- Memoized counterpart of `rollStep`. -/
def rollStepM (targets : List Target) (mode : SolverMode)
    (FM : Nat → Nat → Nat → Memo → ℚ × Memo) (n score usedMask : Nat)
    (acc : ℚ × Memo) (counts : List Nat) : ℚ × Memo :=
  let pRoll := pRollQ n counts
  let st := bestPickM targets mode FM n score usedMask counts acc.2
  if st.1 then (acc.1 + pRoll * st.2.1, st.2.2) else (acc.1, st.2.2)

/-- Memoized counterpart of `value`: `probSuccess` exactly as written in
src/solver.ts, with the cache lookup first and an insertion at every return
point. -/
def valueM (targets : List Target) (mode : SolverMode) :
    Nat → Nat → Nat → Nat → Memo → ℚ × Memo
  | 0, _, _, _, memo => (0, memo)
  | fuel + 1, d, s, m, memo =>
    match memoFind memo (d, s, m, mode) with
    | some v => (v, memo)
    | none =>
      if isSuccess targets s m then
        (terminalPayoff targets mode s m,
          ((d, s, m, mode), terminalPayoff targets mode s m) :: memo)
      else if d = 0 then (0, ((d, s, m, mode), 0) :: memo)
      else
        let res := (genCountVectors d).foldl
          (rollStepM targets mode (valueM targets mode fuel) d s m) (0, memo)
        (res.1, ((d, s, m, mode), res.1) :: res.2)

/-- Memoized counterpart of `faceEval` in the per-face loop of `solve`. -/
def faceEvalM (rolls : List Nat) (targets : List Target) (usedCounts : Nat → Nat)
    (mode : SolverMode) (f : Nat) (memo : Memo) : ℚ × Memo :=
  let count := rollCounter rolls f
  let newScore := computeCurrentScore usedCounts + faceValue f * count
  let newUsedMask := baseUsedMask usedCounts ||| (1 <<< (f - 1))
  let newRemaining : Int := nDiceNow usedCounts - count
  if isSuccess targets newScore newUsedMask then
    (terminalPayoff targets mode newScore newUsedMask, memo)
  else if newRemaining = 0 then (0, memo)
  else valueM targets mode (newRemaining.toNat + 1) newRemaining.toNat newScore newUsedMask memo

/-- Memoized counterpart of `faceStep`: the per-face loop shares one memo
across all six faces of one `solve` call. -/
def faceStepM (rolls : List Nat) (targets : List Target) (usedCounts : Nat → Nat)
    (mode : SolverMode) (st : LoopState × Memo) (f : Nat) : LoopState × Memo :=
  if legalFace rolls usedCounts f then
    let vm := faceEvalM rolls targets usedCounts mode f st.2
    ({ probs := fun g => if g = f then some vm.1 else st.1.probs g
       choices := fun g => if g = f then some (mkChoiceOf rolls usedCounts mode f vm.1)
         else st.1.choices g
       best := if st.1.best.2 < vm.1 then (some f, vm.1) else st.1.best }, vm.2)
  else st

/-- `solve` with the memoization written out: the cache starts empty
(`const probMemo = new Map()` inside `solve`), is threaded through the six
per-face evaluations, and is discarded when `solve` returns. -/
def solveM (rolls : List Nat) (targets : List Target) (usedCounts : Nat → Nat)
    (mode : SolverMode) : SolverResult × Memo :=
  let final := [1, 2, 3, 4, 5, 6].foldl (faceStepM rolls targets usedCounts mode)
    (⟨fun _ => none, fun _ => none, (none, -1)⟩, [])
  ({ bestFace := final.1.best.1
     probs := final.1.probs
     choices := final.1.choices
     mode := mode }, final.2)

/-- Every cache entry stores the value the pure recursion assigns to its key. -/
def MemoGood (targets : List Target) (memo : Memo) : Prop :=
  ∀ e ∈ memo, e.2 = probSuccess targets e.1.2.2.2 e.1.1 e.1.2.1 e.1.2.2.1

/-- The contribution of one count vector to `totalValue`. -/
def rollTerm (targets : List Target) (mode : SolverMode) (F : Nat → Nat → Nat → ℚ)
    (n score usedMask : Nat) (counts : List Nat) : ℚ :=
  rollStep targets mode F n score usedMask 0 counts

/-- The `(bestFace, bestValue)` component of one iteration of the per-face
loop, taken in isolation. -/
def selStep (ev : Nat → ℚ) (legal : Nat → Bool) (b : Option Nat × ℚ) (f : Nat) :
    Option Nat × ℚ :=
  if legal f then (if b.2 < ev f then (some f, ev f) else b) else b

/-- Relation between a memoized loop state and the pure one. -/
def StRel (targets : List Target) (st : Bool × ℚ × Memo) (stP : Bool × ℚ) : Prop :=
  st.1 = stP.1 ∧ st.2.1 = stP.2 ∧ MemoGood targets st.2.2

/-! ### Properties of the composition enumerator -/

theorem mem_genVecsAux (f : Nat) : ∀ (n : Nat) (c : List Nat),
    c ∈ genVecsAux (f + 1) n ↔ c.length = f + 1 ∧ c.sum = n := by
  induction f with
  | zero =>
    intro n c
    constructor
    · intro h
      simp only [genVecsAux, List.mem_singleton] at h
      subst h
      simp
    · rintro ⟨h1, h2⟩
      obtain ⟨a, rfl⟩ := List.length_eq_one.mp h1
      simp only [List.sum_cons, List.sum_nil, Nat.add_zero] at h2
      subst h2
      simp [genVecsAux]
  | succ g ih =>
    intro n c
    constructor
    · intro h
      simp only [genVecsAux, List.mem_flatMap, List.mem_map, List.mem_range] at h
      obtain ⟨k, hk, v, hv, rfl⟩ := h
      obtain ⟨hvl, hvs⟩ := (ih (n - k) v).mp hv
      refine ⟨by simp [hvl], ?_⟩
      simp only [List.sum_cons, hvs]
      omega
    · rintro ⟨h1, h2⟩
      match c with
      | [] => simp at h1
      | k :: v =>
        simp only [List.length_cons, Nat.add_right_cancel_iff] at h1
        simp only [List.sum_cons] at h2
        simp only [genVecsAux, List.mem_flatMap, List.mem_map, List.mem_range]
        exact ⟨k, by omega, v, (ih (n - k) v).mpr ⟨h1, by omega⟩, rfl⟩

theorem nodup_genVecsAux (f : Nat) : ∀ n : Nat, (genVecsAux (f + 1) n).Nodup := by
  induction f with
  | zero => intro n; simp [genVecsAux]
  | succ g ih =>
    intro n
    show (genVecsAux (g + 2) n).Nodup
    rw [genVecsAux, List.nodup_flatMap]
    refine ⟨fun k _ => (ih (n - k)).map List.cons_injective, ?_⟩
    refine (List.pairwise_lt_range _).imp ?_
    intro k k' hkk'
    intro c hc hc'
    simp only [List.mem_map] at hc hc'
    obtain ⟨v, _, rfl⟩ := hc
    obtain ⟨v', _, h⟩ := hc'
    exact absurd (List.head_eq_of_cons_eq h.symm) (Nat.ne_of_lt hkk')

theorem mem_genCountVectors (n : Nat) (c : List Nat) :
    c ∈ genCountVectors n ↔ c.length = 6 ∧ c.sum = n :=
  mem_genVecsAux 5 n c

theorem nodup_genCountVectors (n : Nat) : (genCountVectors n).Nodup :=
  nodup_genVecsAux 5 n

/-- Bridge between sums over `List.range` and over `Finset.range`. -/
theorem list_range_map_sum {M : Type} [AddCommMonoid M] (n : Nat) (f : Nat → M) :
    ((List.range n).map f).sum = ∑ i ∈ Finset.range n, f i := by
  induction n with
  | zero => simp
  | succ m ih =>
    rw [List.range_succ, Finset.sum_range_succ, List.map_append, List.sum_append, ih]
    simp

/-- Sums distribute over `flatMap`. -/
theorem map_flatMap_sum {α β : Type} (l : List α) (g : α → List β) (h : β → ℚ) :
    (((l.flatMap g).map h).sum) = (l.map fun a => ((g a).map h).sum).sum := by
  induction l with
  | nil => simp
  | cons a t ih => simp [List.flatMap_cons, ih]

/-- The inverse-factorial generating identity behind the multinomial law:
summing `∏ 1/cᵢ!` over all compositions of `n` into `f + 1` parts gives
`(f+1)^n / n!`. -/
theorem sum_invFact_genVecsAux (f : Nat) : ∀ n : Nat,
    ((genVecsAux (f + 1) n).map fun c =>
      (c.map fun ci => ((Nat.factorial ci : ℚ))⁻¹).prod).sum
      = ((f : ℚ) + 1) ^ n / (Nat.factorial n : ℚ) := by
  induction f with
  | zero =>
    intro n
    simp [genVecsAux, one_div]
  | succ g ih =>
    intro n
    have hunf : genVecsAux (g + 1 + 1) n
        = (List.range (n + 1)).flatMap fun k =>
            (genVecsAux (g + 1) (n - k)).map fun v => k :: v := rfl
    rw [hunf, map_flatMap_sum]
    have key : ∀ k ∈ List.range (n + 1),
        ((((genVecsAux (g + 1) (n - k)).map fun v => k :: v).map
          fun c => (c.map fun ci => ((Nat.factorial ci : ℚ))⁻¹).prod).sum)
        = ((Nat.factorial k : ℚ))⁻¹ * (((g : ℚ) + 1) ^ (n - k) / (Nat.factorial (n - k) : ℚ)) := by
      intro k _
      rw [List.map_map]
      have hcomp : ((fun c => (c.map fun ci => ((Nat.factorial ci : ℚ))⁻¹).prod) ∘ fun v => k :: v)
          = fun v : List Nat => ((Nat.factorial k : ℚ))⁻¹
            * (v.map fun ci => ((Nat.factorial ci : ℚ))⁻¹).prod := by
        funext v
        simp
      rw [hcomp, List.sum_map_mul_left, ih (n - k)]
    rw [List.map_congr_left key, list_range_map_sum]
    have hfactne : ∀ m : Nat, ((Nat.factorial m : ℚ)) ≠ 0 := fun m => by
      exact_mod_cast Nat.factorial_ne_zero m
    have hterm : ∀ k ∈ Finset.range (n + 1),
        ((Nat.factorial k : ℚ))⁻¹ * (((g : ℚ) + 1) ^ (n - k) / (Nat.factorial (n - k) : ℚ))
        = ((g : ℚ) + 1) ^ (n - k) * (Nat.choose n k : ℚ) / (Nat.factorial n : ℚ) := by
      intro k hk
      have hkn : k ≤ n := Nat.lt_succ_iff.mp (Finset.mem_range.mp hk)
      rw [Nat.cast_choose ℚ hkn]
      have h1 := hfactne k
      have h2 := hfactne (n - k)
      have h3 := hfactne n
      field_simp
      ring
    rw [Finset.sum_congr rfl hterm, ← Finset.sum_div]
    have hbin := add_pow (1 : ℚ) ((g : ℚ) + 1) n
    simp only [one_pow, one_mul] at hbin
    rw [← hbin]
    push_cast
    ring_nf

theorem foldl_div_eq (g : Nat → ℚ) : ∀ (l : List Nat) (x : ℚ),
    l.foldl (fun w c => w / g c) x = x / (l.map g).prod := by
  intro l
  induction l with
  | nil => intro x; simp
  | cons a t ih =>
    intro x
    simp only [List.foldl_cons, List.map_cons, List.prod_cons]
    rw [ih, div_div]

/-- The sequential divisions of the `ways` loop equal one division by the
product of the factorials. -/
theorem waysQ_eq (n : Nat) (c : List Nat) :
    waysQ n c = (Nat.factorial n : ℚ) / (c.map fun ci => (Nat.factorial ci : ℚ)).prod :=
  foldl_div_eq _ c _

/-- Each enumerated outcome carries the exact multinomial probability. -/
theorem pRollQ_eq (n : Nat) (c : List Nat) :
    pRollQ n c
      = (Nat.factorial n : ℚ) / (c.map fun ci => (Nat.factorial ci : ℚ)).prod / (6 ^ n : ℚ) := by
  rw [pRollQ, waysQ_eq]

theorem prod_factCast_pos (c : List Nat) : 0 < (c.map fun ci => (Nat.factorial ci : ℚ)).prod := by
  apply List.prod_pos
  intro a ha
  obtain ⟨ci, _, rfl⟩ := List.mem_map.mp ha
  exact_mod_cast Nat.factorial_pos ci

theorem pRollQ_nonneg (n : Nat) (c : List Nat) : 0 ≤ pRollQ n c := by
  rw [pRollQ_eq]
  apply div_nonneg (div_nonneg (by positivity) (prod_factCast_pos c).le) (by positivity)

theorem pRollQ_pos (n : Nat) (c : List Nat) : 0 < pRollQ n c := by
  rw [pRollQ_eq]
  apply div_pos (div_pos ?_ (prod_factCast_pos c)) (by positivity)
  exact_mod_cast Nat.factorial_pos n

theorem prod_inv_map (c : List Nat) :
    (c.map fun ci => ((Nat.factorial ci : ℚ))⁻¹).prod
      = ((c.map fun ci => (Nat.factorial ci : ℚ)).prod)⁻¹ := by
  induction c with
  | nil => simp
  | cons a t ih => simp [ih, mul_inv, mul_comm]

/-- Normalization: the probabilities over the full enumerated distribution
sum to exactly 1, for every number of dice. -/
theorem sum_pRollQ (n : Nat) : ((genCountVectors n).map (pRollQ n)).sum = 1 := by
  have h1 : ∀ c ∈ genCountVectors n,
      pRollQ n c = ((Nat.factorial n : ℚ) / (6 ^ n : ℚ))
        * (c.map fun ci => ((Nat.factorial ci : ℚ))⁻¹).prod := by
    intro c _
    rw [pRollQ_eq, prod_inv_map]
    rw [div_div, div_eq_mul_inv, div_eq_mul_inv, mul_inv, mul_assoc]
    ring
  rw [List.map_congr_left h1, List.sum_map_mul_left]
  have h2 := sum_invFact_genVecsAux 5 n
  have h6 : (((5 : Nat) : ℚ) + 1) = 6 := by norm_num
  rw [h6] at h2
  rw [genCountVectors]
  rw [h2]
  have hf : ((Nat.factorial n : ℚ)) ≠ 0 := by exact_mod_cast Nat.factorial_ne_zero n
  have h6n : ((6 : ℚ) ^ n) ≠ 0 := by positivity
  field_simp

/-! ### Fuel irrelevance of the value function -/

theorem outcomeOf_ext (targets : List Target) (mode : SolverMode)
    {F G : Nat → Nat → Nat → ℚ} (n score usedMask cnt face : Nat) (hcnt : cnt ≠ 0)
    (h : ∀ d s m, 0 < d → d < n → F d s m = G d s m) :
    outcomeOf targets mode F n score usedMask cnt face
      = outcomeOf targets mode G n score usedMask cnt face := by
  unfold outcomeOf
  by_cases h2 : isSuccess targets (score + faceValue face * cnt) (usedMask ||| (1 <<< (face - 1)))
      = true
  · rw [if_pos h2, if_pos h2]
  · rw [if_neg h2, if_neg h2]
    by_cases h3 : n - cnt = 0
    · rw [if_pos h3, if_pos h3]
    · rw [if_neg h3, if_neg h3]
      exact h _ _ _ (by omega) (by omega)

theorem pickStep_ext (targets : List Target) (mode : SolverMode)
    {F G : Nat → Nat → Nat → ℚ} (n score usedMask : Nat) (counts : List Nat)
    (h : ∀ d s m, 0 < d → d < n → F d s m = G d s m) (st : Bool × ℚ) (face : Nat) :
    pickStep targets mode F n score usedMask counts st face
      = pickStep targets mode G n score usedMask counts st face := by
  unfold pickStep
  by_cases h0 : counts.getD (face - 1) 0 = 0
  · rw [if_pos h0, if_pos h0]
  · rw [if_neg h0, if_neg h0]
    by_cases h1 : (usedMask &&& (1 <<< (face - 1))) != 0
    · rw [if_pos h1, if_pos h1]
    · rw [if_neg h1, if_neg h1]
      rw [outcomeOf_ext targets mode n score usedMask _ face h0 h]

theorem rollStep_ext (targets : List Target) (mode : SolverMode)
    {F G : Nat → Nat → Nat → ℚ} (n score usedMask : Nat)
    (h : ∀ d s m, 0 < d → d < n → F d s m = G d s m) (tv : ℚ) (counts : List Nat) :
    rollStep targets mode F n score usedMask tv counts
      = rollStep targets mode G n score usedMask tv counts := by
  unfold rollStep bestPick
  rw [List.foldl_ext _ _ _ fun st face _ => pickStep_ext targets mode n score usedMask counts h st face]

theorem value_fuel_irrel (targets : List Target) (mode : SolverMode) :
    ∀ (a : Nat) {b d : Nat} (s m : Nat), d < a → d < b →
      value targets mode a d s m = value targets mode b d s m := by
  intro a
  induction a with
  | zero => intro b d s m ha _; omega
  | succ a ih =>
    intro b d s m ha hb
    match b, hb with
    | b + 1, hb =>
      show value _ _ (a + 1) d s m = value _ _ (b + 1) d s m
      by_cases hs : isSuccess targets s m = true
      · simp [value, hs]
      · by_cases hd : d = 0
        · simp [value, hs, hd]
        · simp only [value, hs, if_false, hd, Bool.false_eq_true]
          refine List.foldl_ext _ _ _ fun tv counts _ => ?_
          refine rollStep_ext targets mode d s m (fun d' s' m' hd' hlt => ?_) tv counts
          exact ih s' m' (by omega) (by omega)

/-! ### Sum form and bounds of the value function -/

theorem rollStep_eq_add (targets : List Target) (mode : SolverMode)
    (F : Nat → Nat → Nat → ℚ) (n score usedMask : Nat) (tv : ℚ) (counts : List Nat) :
    rollStep targets mode F n score usedMask tv counts
      = tv + rollTerm targets mode F n score usedMask counts := by
  unfold rollTerm rollStep
  by_cases h : (bestPick targets mode F n score usedMask counts).1 = true
  · simp [h]
  · simp [h]

theorem foldl_rollStep_sum (targets : List Target) (mode : SolverMode)
    (F : Nat → Nat → Nat → ℚ) (n score usedMask : Nat) :
    ∀ (l : List (List Nat)) (init : ℚ),
      l.foldl (rollStep targets mode F n score usedMask) init
        = init + (l.map (rollTerm targets mode F n score usedMask)).sum := by
  intro l
  induction l with
  | nil => intro init; simp
  | cons c t ih =>
    intro init
    simp only [List.foldl_cons, List.map_cons, List.sum_cons]
    rw [ih, rollStep_eq_add]
    ring

/-- The recursive case of `value` as an explicit sum over count vectors. -/
theorem value_eq_sum (targets : List Target) (mode : SolverMode) (fuel d s m : Nat)
    (hs : ¬ isSuccess targets s m = true) (hd : d ≠ 0) :
    value targets mode (fuel + 1) d s m
      = ((genCountVectors d).map
          (rollTerm targets mode (value targets mode fuel) d s m)).sum := by
  simp only [value, hs, if_false, hd, Bool.false_eq_true]
  rw [foldl_rollStep_sum]
  ring

theorem terminalPayoff_nonneg (targets : List Target) (mode : SolverMode) (s m : Nat) :
    0 ≤ terminalPayoff targets mode s m := by
  cases mode with
  | anyTile => norm_num [terminalPayoff]
  | highestScore => simp [terminalPayoff]

theorem pickStep_snd_ge (targets : List Target) (mode : SolverMode)
    (F : Nat → Nat → Nat → ℚ) (n score usedMask : Nat) (counts : List Nat)
    (st : Bool × ℚ) (face : Nat) :
    st.2 ≤ (pickStep targets mode F n score usedMask counts st face).2 := by
  unfold pickStep
  by_cases h0 : counts.getD (face - 1) 0 = 0
  · rw [if_pos h0]
  · rw [if_neg h0]
    by_cases h1 : (usedMask &&& (1 <<< (face - 1))) != 0
    · rw [if_pos h1]
    · rw [if_neg h1]
      dsimp only
      split_ifs with h2
      · exact le_of_lt h2
      · exact le_refl _

theorem bestPick_snd_ge_init (targets : List Target) (mode : SolverMode)
    (F : Nat → Nat → Nat → ℚ) (n score usedMask : Nat) (counts : List Nat) :
    ∀ (l : List Nat) (st : Bool × ℚ),
      st.2 ≤ (l.foldl (pickStep targets mode F n score usedMask counts) st).2 := by
  intro l
  induction l with
  | nil => intro st; simp
  | cons a t ih =>
    intro st
    exact le_trans (pickStep_snd_ge targets mode F n score usedMask counts st a) (ih _)

theorem bestPick_snd_nonneg (targets : List Target) (mode : SolverMode)
    (F : Nat → Nat → Nat → ℚ) (n score usedMask : Nat) (counts : List Nat) :
    0 ≤ (bestPick targets mode F n score usedMask counts).2 :=
  bestPick_snd_ge_init targets mode F n score usedMask counts [1, 2, 3, 4, 5, 6] (false, 0)

theorem outcomeOf_le (targets : List Target) (mode : SolverMode)
    {F : Nat → Nat → Nat → ℚ} (n score usedMask cnt face : Nat) {B : ℚ}
    (hF : ∀ d s m, F d s m ≤ B) (hpay : ∀ s m, terminalPayoff targets mode s m ≤ B)
    (hB : 0 ≤ B) :
    outcomeOf targets mode F n score usedMask cnt face ≤ B := by
  unfold outcomeOf
  dsimp only
  split_ifs
  · exact hpay _ _
  · exact hB
  · exact hF _ _ _

theorem pickStep_snd_le (targets : List Target) (mode : SolverMode)
    {F : Nat → Nat → Nat → ℚ} (n score usedMask : Nat) (counts : List Nat) {B : ℚ}
    (hF : ∀ d s m, F d s m ≤ B) (hpay : ∀ s m, terminalPayoff targets mode s m ≤ B)
    (hB : 0 ≤ B) (st : Bool × ℚ) (face : Nat) (hst : st.2 ≤ B) :
    (pickStep targets mode F n score usedMask counts st face).2 ≤ B := by
  unfold pickStep
  by_cases h0 : counts.getD (face - 1) 0 = 0
  · rw [if_pos h0]; exact hst
  · rw [if_neg h0]
    by_cases h1 : (usedMask &&& (1 <<< (face - 1))) != 0
    · rw [if_pos h1]; exact hst
    · rw [if_neg h1]
      dsimp only
      split_ifs with h2
      · exact outcomeOf_le targets mode n score usedMask _ face hF hpay hB
      · exact hst

theorem bestPick_snd_le (targets : List Target) (mode : SolverMode)
    {F : Nat → Nat → Nat → ℚ} (n score usedMask : Nat) (counts : List Nat) {B : ℚ}
    (hF : ∀ d s m, F d s m ≤ B) (hpay : ∀ s m, terminalPayoff targets mode s m ≤ B)
    (hB : 0 ≤ B) :
    (bestPick targets mode F n score usedMask counts).2 ≤ B := by
  have main : ∀ (l : List Nat) (st : Bool × ℚ), st.2 ≤ B →
      (l.foldl (pickStep targets mode F n score usedMask counts) st).2 ≤ B := by
    intro l
    induction l with
    | nil => intro st hst; simpa using hst
    | cons a t ih =>
      intro st hst
      exact ih _ (pickStep_snd_le targets mode n score usedMask counts hF hpay hB st a hst)
  exact main [1, 2, 3, 4, 5, 6] (false, 0) hB

theorem rollTerm_nonneg (targets : List Target) (mode : SolverMode)
    (F : Nat → Nat → Nat → ℚ) (n score usedMask : Nat) (counts : List Nat) :
    0 ≤ rollTerm targets mode F n score usedMask counts := by
  unfold rollTerm rollStep
  dsimp only
  split_ifs
  · simpa using mul_nonneg (pRollQ_nonneg n counts)
      (bestPick_snd_nonneg targets mode F n score usedMask counts)
  · simp

theorem rollTerm_le_pRollQ (targets : List Target) (mode : SolverMode)
    {F : Nat → Nat → Nat → ℚ} (n score usedMask : Nat) (counts : List Nat)
    (hF : ∀ d s m, F d s m ≤ 1) (hpay : ∀ s m, terminalPayoff targets mode s m ≤ 1) :
    rollTerm targets mode F n score usedMask counts ≤ pRollQ n counts := by
  unfold rollTerm rollStep
  dsimp only
  split_ifs
  · have h1 := bestPick_snd_le targets mode n score usedMask counts hF hpay (by norm_num)
    have h2 := mul_le_mul_of_nonneg_left h1 (pRollQ_nonneg n counts)
    simpa using h2.trans_eq (mul_one _)
  · simpa using pRollQ_nonneg n counts

theorem value_nonneg (targets : List Target) (mode : SolverMode) :
    ∀ (fuel d s m : Nat), 0 ≤ value targets mode fuel d s m := by
  intro fuel
  induction fuel with
  | zero => intro d s m; simp [value]
  | succ fuel ih =>
    intro d s m
    by_cases hs : isSuccess targets s m = true
    · simp only [value, hs, if_pos]
      exact terminalPayoff_nonneg targets mode s m
    · by_cases hd : d = 0
      · simp [value, hs, hd]
      · rw [value_eq_sum targets mode fuel d s m hs hd]
        refine List.sum_nonneg fun x hx => ?_
        obtain ⟨c, _, rfl⟩ := List.mem_map.mp hx
        exact rollTerm_nonneg targets mode _ d s m c

/-- In probability mode the value function never exceeds 1. -/
theorem value_le_one (targets : List Target) :
    ∀ (fuel d s m : Nat), value targets .anyTile fuel d s m ≤ 1 := by
  intro fuel
  induction fuel with
  | zero => intro d s m; simp [value]
  | succ fuel ih =>
    intro d s m
    by_cases hs : isSuccess targets s m = true
    · simp [value, hs, terminalPayoff]
    · by_cases hd : d = 0
      · simp [value, hs, hd]
      · rw [value_eq_sum targets .anyTile fuel d s m hs hd]
        have hpay : ∀ s m, terminalPayoff targets .anyTile s m ≤ 1 := by
          intro s m
          simp [terminalPayoff]
        have h1 : ((genCountVectors d).map
            (rollTerm targets .anyTile (value targets .anyTile fuel) d s m)).sum
            ≤ ((genCountVectors d).map (pRollQ d)).sum :=
          List.sum_le_sum fun c _ =>
            rollTerm_le_pRollQ targets .anyTile d s m c (fun d' s' m' => ih d' s' m') hpay
        exact h1.trans_eq (sum_pRollQ d)

/-! ### Terminal states and the empty tile pool -/

/-- In a claimable state the value function returns the terminal payoff
immediately, whatever the number of remaining dice. -/
theorem probSuccess_terminal (targets : List Target) (mode : SolverMode)
    (d s m : Nat) (hs : isSuccess targets s m = true) :
    probSuccess targets mode d s m = terminalPayoff targets mode s m := by
  unfold probSuccess
  simp [value, hs]

theorem findEligibleTiles_nil (score : Nat) : findEligibleTiles score [] = [] := rfl

theorem isSuccess_nil (s m : Nat) : isSuccess [] s m = false := by
  unfold isSuccess
  split
  · simp [findEligibleTiles, sortTiles]
  · rfl

theorem bestPick_snd_zero (targets : List Target) (mode : SolverMode)
    (F : Nat → Nat → Nat → ℚ) (n s m : Nat) (counts : List Nat)
    (hout : ∀ cnt face, cnt ≠ 0 → outcomeOf targets mode F n s m cnt face = 0) :
    (bestPick targets mode F n s m counts).2 = 0 := by
  have main : ∀ (l : List Nat) (st : Bool × ℚ), st.2 = 0 →
      (l.foldl (pickStep targets mode F n s m counts) st).2 = 0 := by
    intro l
    induction l with
    | nil => intro st h; simpa using h
    | cons a t ih =>
      intro st h
      apply ih
      unfold pickStep
      by_cases h0 : counts.getD (a - 1) 0 = 0
      · rw [if_pos h0]; exact h
      · rw [if_neg h0]
        by_cases h1 : (m &&& (1 <<< (a - 1))) != 0
        · rw [if_pos h1]; exact h
        · rw [if_neg h1]
          dsimp only
          rw [hout _ a h0, h]
          norm_num
  exact main _ _ rfl

/-- With an empty tile pool the value function is identically zero. -/
theorem value_nil_targets (mode : SolverMode) :
    ∀ (fuel d s m : Nat), value [] mode fuel d s m = 0 := by
  intro fuel
  induction fuel with
  | zero => intro d s m; rfl
  | succ fuel ih =>
    intro d s m
    have hs : ¬ isSuccess [] s m = true := by rw [isSuccess_nil]; simp
    by_cases hd : d = 0
    · simp [value, isSuccess_nil, hd]
    · rw [value_eq_sum [] mode fuel d s m hs hd]
      apply List.sum_eq_zero
      intro x hx
      obtain ⟨c, _, rfl⟩ := List.mem_map.mp hx
      unfold rollTerm rollStep
      dsimp only
      rw [bestPick_snd_zero]
      · split_ifs <;> ring
      · intro cnt face hcnt
        unfold outcomeOf
        dsimp only
        rw [if_neg (by rw [isSuccess_nil]; simp)]
        split_ifs
        · rfl
        · exact ih _ _ _

/-! ### Monotonicity in the score (all-overshoot pools, probability mode) -/

theorem length_insertTile (a : Target) : ∀ l : List Target,
    (insertTile a l).length = l.length + 1 := by
  intro l
  induction l with
  | nil => rfl
  | cons b t ih =>
    unfold insertTile
    split_ifs <;> simp [ih]

theorem length_sortTiles : ∀ l : List Target, (sortTiles l).length = l.length := by
  intro l
  induction l with
  | nil => rfl
  | cons a t ih => simp [sortTiles, length_insertTile, ih]

theorem mem_insertTile (x a : Target) : ∀ l : List Target,
    x ∈ insertTile a l ↔ x = a ∨ x ∈ l := by
  intro l
  induction l with
  | nil => simp [insertTile]
  | cons b t ih =>
    unfold insertTile
    split_ifs <;> simp [ih] <;> tauto

theorem mem_sortTiles (x : Target) : ∀ l : List Target, x ∈ sortTiles l ↔ x ∈ l := by
  intro l
  induction l with
  | nil => simp [sortTiles]
  | cons a t ih => simp [sortTiles, mem_insertTile, ih]

theorem filter_length_mono {α : Type} (p q : α → Bool) :
    ∀ l : List α, (∀ t ∈ l, p t = true → q t = true) →
      (l.filter p).length ≤ (l.filter q).length := by
  intro l
  induction l with
  | nil => intro _; simp
  | cons a t ih =>
    intro h
    have ht := ih fun x hx => h x (List.mem_cons_of_mem a hx)
    by_cases hp : p a = true
    · rw [List.filter_cons_of_pos hp, List.filter_cons_of_pos (h a (List.mem_cons_self a t) hp)]
      simpa using ht
    · rw [List.filter_cons_of_neg (by simpa using hp)]
      refine ht.trans ?_
      by_cases hq : q a = true
      · rw [List.filter_cons_of_pos hq]
        simp
      · rw [List.filter_cons_of_neg (by simpa using hq)]

/-- For an all-overshoot pool, raising the score never shrinks the eligible
list. -/
theorem eligLen_mono (targets : List Target)
    (hov : ∀ t ∈ targets, t.canOvershoot = true) {s s' : Nat} (h : s ≤ s') :
    (findEligibleTiles s targets).length ≤ (findEligibleTiles s' targets).length := by
  unfold findEligibleTiles
  rw [length_sortTiles, length_sortTiles]
  apply filter_length_mono
  intro t ht hp
  rw [hov t ht] at hp ⊢
  simp only [if_true, decide_eq_true_eq] at hp ⊢
  omega

theorem isSuccess_mono (targets : List Target)
    (hov : ∀ t ∈ targets, t.canOvershoot = true) {s s' m : Nat} (h : s ≤ s') :
    isSuccess targets s m = true → isSuccess targets s' m = true := by
  unfold isSuccess
  split
  · simp only [decide_eq_true_eq]
    intro hpos
    exact lt_of_lt_of_le hpos (eligLen_mono targets hov h)
  · intro hfalse
    exact absurd hfalse (by simp)

theorem ite_max_mono {a a' b b' : ℚ} (ha : a ≤ a') (hb : b ≤ b') :
    (if a < b then b else a) ≤ (if a' < b' then b' else a') := by
  split_ifs <;> linarith

theorem outcomeOf_mono_anyTile (targets : List Target)
    {F G : Nat → Nat → Nat → ℚ} {n s s' m : Nat} (cnt face : Nat)
    (hsucc : ∀ x m', isSuccess targets (s + x) m' = true → isSuccess targets (s' + x) m' = true)
    (hFle1 : ∀ d' s'' m', F d' s'' m' ≤ 1)
    (hFG : ∀ d' x m', F d' (s + x) m' ≤ G d' (s' + x) m') :
    outcomeOf targets .anyTile F n s m cnt face
      ≤ outcomeOf targets .anyTile G n s' m cnt face := by
  unfold outcomeOf
  dsimp only
  by_cases h2 : isSuccess targets (s + faceValue face * cnt) (m ||| (1 <<< (face - 1))) = true
  · rw [if_pos h2, if_pos (hsucc _ _ h2)]
    simp [terminalPayoff]
  · rw [if_neg h2]
    by_cases h2' : isSuccess targets (s' + faceValue face * cnt) (m ||| (1 <<< (face - 1))) = true
    · rw [if_pos h2']
      show (if n - cnt = 0 then 0 else F (n - cnt) (s + faceValue face * cnt)
        (m ||| (1 <<< (face - 1)))) ≤ terminalPayoff targets .anyTile _ _
      unfold terminalPayoff
      split_ifs
      · norm_num
      · exact hFle1 _ _ _
    · rw [if_neg h2']
      split_ifs
      · exact le_refl 0
      · exact hFG _ _ _

theorem bestPick_rel_anyTile (targets : List Target)
    {F G : Nat → Nat → Nat → ℚ} {n s s' m : Nat} (counts : List Nat)
    (hout : ∀ cnt face, cnt ≠ 0 →
      outcomeOf targets .anyTile F n s m cnt face
        ≤ outcomeOf targets .anyTile G n s' m cnt face) :
    (bestPick targets .anyTile F n s m counts).1
        = (bestPick targets .anyTile G n s' m counts).1
      ∧ (bestPick targets .anyTile F n s m counts).2
        ≤ (bestPick targets .anyTile G n s' m counts).2 := by
  have main : ∀ (l : List Nat) (st st' : Bool × ℚ), st.1 = st'.1 → st.2 ≤ st'.2 →
      (l.foldl (pickStep targets .anyTile F n s m counts) st).1
          = (l.foldl (pickStep targets .anyTile G n s' m counts) st').1
        ∧ (l.foldl (pickStep targets .anyTile F n s m counts) st).2
          ≤ (l.foldl (pickStep targets .anyTile G n s' m counts) st').2 := by
    intro l
    induction l with
    | nil => intro st st' h1 h2; exact ⟨h1, h2⟩
    | cons a t ih =>
      intro st st' h1 h2
      apply ih
      · unfold pickStep
        by_cases h0 : counts.getD (a - 1) 0 = 0
        · rw [if_pos h0, if_pos h0]; exact h1
        · rw [if_neg h0, if_neg h0]
          by_cases hm : (m &&& (1 <<< (a - 1))) != 0
          · rw [if_pos hm, if_pos hm]; exact h1
          · rw [if_neg hm, if_neg hm]
      · unfold pickStep
        by_cases h0 : counts.getD (a - 1) 0 = 0
        · rw [if_pos h0, if_pos h0]; exact h2
        · rw [if_neg h0, if_neg h0]
          by_cases hm : (m &&& (1 <<< (a - 1))) != 0
          · rw [if_pos hm, if_pos hm]; exact h2
          · rw [if_neg hm, if_neg hm]
            exact ite_max_mono h2 (hout _ a h0)
  exact main [1, 2, 3, 4, 5, 6] (false, 0) (false, 0) rfl (le_refl 0)

theorem rollTerm_mono_anyTile (targets : List Target)
    {F G : Nat → Nat → Nat → ℚ} {n s s' m : Nat} (counts : List Nat)
    (hout : ∀ cnt face, cnt ≠ 0 →
      outcomeOf targets .anyTile F n s m cnt face
        ≤ outcomeOf targets .anyTile G n s' m cnt face) :
    rollTerm targets .anyTile F n s m counts ≤ rollTerm targets .anyTile G n s' m counts := by
  obtain ⟨h1, h2⟩ := bestPick_rel_anyTile targets counts hout
  unfold rollTerm rollStep
  dsimp only
  rw [← h1]
  split_ifs
  · have := mul_le_mul_of_nonneg_left h2 (pRollQ_nonneg n counts)
    linarith
  · exact le_refl 0

/-- In probability mode, over an all-overshoot pool, the value function is
monotone in the score. -/
theorem value_mono_score (targets : List Target)
    (hov : ∀ t ∈ targets, t.canOvershoot = true) :
    ∀ (fuel : Nat) {d s s' m : Nat}, s ≤ s' →
      value targets .anyTile fuel d s m ≤ value targets .anyTile fuel d s' m := by
  intro fuel
  induction fuel with
  | zero => intro d s s' m _; exact le_refl 0
  | succ fuel ih =>
    intro d s s' m hss
    by_cases hs' : isSuccess targets s' m = true
    · have hr : value targets .anyTile (fuel + 1) d s' m = 1 := by
        simp [value, hs', terminalPayoff]
      rw [hr]
      exact value_le_one targets (fuel + 1) d s m
    · have hs : ¬ isSuccess targets s m = true := fun h =>
        hs' (isSuccess_mono targets hov hss h)
      by_cases hd : d = 0
      · simp [value, hs, hs', hd]
      · rw [value_eq_sum targets .anyTile fuel d s m hs hd,
          value_eq_sum targets .anyTile fuel d s' m hs' hd]
        apply List.sum_le_sum
        intro c _
        apply rollTerm_mono_anyTile targets c
        intro cnt face hcnt
        apply outcomeOf_mono_anyTile targets cnt face
        · intro x m'
          exact isSuccess_mono targets hov (by omega)
        · intro d' s'' m'
          exact value_le_one targets fuel d' s'' m'
        · intro d' x m'
          exact ih (by omega)

/-! ### Characterizing the per-face loop of `solve` -/

theorem faceStep_best (rolls : List Nat) (targets : List Target) (usedCounts : Nat → Nat)
    (mode : SolverMode) : ∀ (l : List Nat) (st : LoopState),
    (l.foldl (faceStep rolls targets usedCounts mode) st).best
      = l.foldl (selStep (faceEval rolls targets usedCounts mode) (legalFace rolls usedCounts))
          st.best := by
  intro l
  induction l with
  | nil => intro st; rfl
  | cons a t ih =>
    intro st
    rw [List.foldl_cons, List.foldl_cons, ih]
    congr 1
    simp only [faceStep, selStep]
    split_ifs <;> rfl

theorem selStep_snd_ge (ev : Nat → ℚ) (legal : Nat → Bool) (b : Option Nat × ℚ) (f : Nat) :
    b.2 ≤ (selStep ev legal b f).2 := by
  unfold selStep
  split_ifs with h1 h2
  · exact le_of_lt h2
  · exact le_refl _
  · exact le_refl _

theorem selStep_snd_post (ev : Nat → ℚ) (legal : Nat → Bool) (b : Option Nat × ℚ) (f : Nat)
    (hf : legal f = true) : ev f ≤ (selStep ev legal b f).2 := by
  unfold selStep
  rw [if_pos hf]
  split_ifs with h2
  · exact le_refl _
  · exact le_of_not_lt h2

/-- Full specification of the best-face fold: the final value dominates all
legal evaluations, and the chosen face (when the state changed) is the first
legal face attaining the maximum, with strictly smaller evaluations before
it. -/
theorem selFold_spec (ev : Nat → ℚ) (legal : Nat → Bool) :
    ∀ (l : List Nat) (st : Option Nat × ℚ),
      st.2 ≤ (l.foldl (selStep ev legal) st).2
      ∧ (∀ g ∈ l, legal g = true → ev g ≤ (l.foldl (selStep ev legal) st).2)
      ∧ ((l.foldl (selStep ev legal) st) = st
          ∨ ∃ l₁ f l₂, l = l₁ ++ f :: l₂ ∧ legal f = true
              ∧ (l.foldl (selStep ev legal) st).1 = some f
              ∧ (l.foldl (selStep ev legal) st).2 = ev f
              ∧ st.2 < ev f
              ∧ (∀ g ∈ l₁, legal g = true → ev g < ev f)
              ∧ (∀ g ∈ l₂, legal g = true → ev g ≤ ev f)) := by
  intro l
  induction l with
  | nil =>
    intro st
    exact ⟨le_refl _, by simp, Or.inl rfl⟩
  | cons a t ih =>
    intro st
    obtain ⟨h1, h2, h3⟩ := ih (selStep ev legal st a)
    have hge : st.2 ≤ (selStep ev legal st a).2 := selStep_snd_ge ev legal st a
    rw [List.foldl_cons]
    refine ⟨le_trans hge h1, ?_, ?_⟩
    · intro g hg hlg
      rcases List.mem_cons.mp hg with hga | hgt
      · subst hga
        exact le_trans (selStep_snd_post ev legal st g hlg) h1
      · exact h2 g hgt hlg
    · rcases h3 with heq | ⟨m₁, f, m₂, htm, hlf, hr1, hr2, hlt, hm₁, hm₂⟩
      · rw [heq]
        by_cases hla : legal a = true
        · by_cases hup : st.2 < ev a
          · refine Or.inr ⟨[], a, t, by simp, hla, ?_, ?_, hup, by simp, ?_⟩
            · unfold selStep
              rw [if_pos hla, if_pos hup]
            · unfold selStep
              rw [if_pos hla, if_pos hup]
            · intro g hg hlg
              have hg2 := h2 g hg hlg
              rw [heq] at hg2
              unfold selStep at hg2
              rw [if_pos hla, if_pos hup] at hg2
              exact hg2
          · unfold selStep
            rw [if_pos hla, if_neg hup]
            exact Or.inl rfl
        · unfold selStep
          rw [if_neg hla]
          exact Or.inl rfl
      · refine Or.inr ⟨a :: m₁, f, m₂, by rw [htm]; rfl, hlf, hr1, hr2,
          lt_of_le_of_lt hge hlt, ?_, hm₂⟩
        intro g hg hlg
        rcases List.mem_cons.mp hg with hga | hgm
        · subst hga
          exact lt_of_le_of_lt (selStep_snd_post ev legal st g hlg) hlt
        · exact hm₁ g hgm hlg

theorem foldl_faceStep_probs (rolls : List Nat) (targets : List Target)
    (usedCounts : Nat → Nat) (mode : SolverMode) :
    ∀ (l : List Nat) (st : LoopState) (g : Nat),
      (l.foldl (faceStep rolls targets usedCounts mode) st).probs g
        = if g ∈ l ∧ legalFace rolls usedCounts g = true
            then some (faceEval rolls targets usedCounts mode g)
          else st.probs g := by
  intro l
  induction l with
  | nil => intro st g; simp
  | cons a t ih =>
    intro st g
    rw [List.foldl_cons, ih]
    by_cases hgt : g ∈ t ∧ legalFace rolls usedCounts g = true
    · rw [if_pos hgt, if_pos ⟨List.mem_cons_of_mem a hgt.1, hgt.2⟩]
    · rw [if_neg hgt]
      unfold faceStep
      by_cases hga : g = a
      · subst hga
        by_cases hlg : legalFace rolls usedCounts g = true
        · rw [if_pos hlg]
          simp only [if_pos rfl]
          simp [hlg]
        · rw [if_neg hlg, if_neg fun hc => hlg hc.2]
      · have hng : ¬ (g ∈ a :: t ∧ legalFace rolls usedCounts g = true) := by
          intro hc
          rcases List.mem_cons.mp hc.1 with h | h
          · exact hga h
          · exact hgt ⟨h, hc.2⟩
        rw [if_neg hng]
        split_ifs with hla
        · simp only [LoopState.probs]
          rw [if_neg hga]
        · rfl

theorem foldl_faceStep_choices (rolls : List Nat) (targets : List Target)
    (usedCounts : Nat → Nat) (mode : SolverMode) :
    ∀ (l : List Nat) (st : LoopState) (g : Nat),
      (l.foldl (faceStep rolls targets usedCounts mode) st).choices g
        = if g ∈ l ∧ legalFace rolls usedCounts g = true
            then some (mkChoice rolls targets usedCounts mode g)
          else st.choices g := by
  intro l
  induction l with
  | nil => intro st g; simp
  | cons a t ih =>
    intro st g
    rw [List.foldl_cons, ih]
    by_cases hgt : g ∈ t ∧ legalFace rolls usedCounts g = true
    · rw [if_pos hgt, if_pos ⟨List.mem_cons_of_mem a hgt.1, hgt.2⟩]
    · rw [if_neg hgt]
      unfold faceStep
      by_cases hga : g = a
      · subst hga
        by_cases hlg : legalFace rolls usedCounts g = true
        · rw [if_pos hlg]
          simp only [if_pos rfl]
          simp [hlg]
        · rw [if_neg hlg, if_neg fun hc => hlg hc.2]
      · have hng : ¬ (g ∈ a :: t ∧ legalFace rolls usedCounts g = true) := by
          intro hc
          rcases List.mem_cons.mp hc.1 with h | h
          · exact hga h
          · exact hgt ⟨h, hc.2⟩
        rw [if_neg hng]
        split_ifs with hla
        · simp only [LoopState.choices]
          rw [if_neg hga]
        · rfl

/-- `probs` of the solver result, in closed form. -/
theorem solve_probs (rolls : List Nat) (targets : List Target) (usedCounts : Nat → Nat)
    (mode : SolverMode) (g : Nat) :
    (solve rolls targets usedCounts mode).probs g
      = if g ∈ [1, 2, 3, 4, 5, 6] ∧ legalFace rolls usedCounts g = true
          then some (faceEval rolls targets usedCounts mode g)
        else none := by
  unfold solve
  dsimp only
  rw [foldl_faceStep_probs]

/-- `choices` of the solver result, in closed form. -/
theorem solve_choices (rolls : List Nat) (targets : List Target) (usedCounts : Nat → Nat)
    (mode : SolverMode) (g : Nat) :
    (solve rolls targets usedCounts mode).choices g
      = if g ∈ [1, 2, 3, 4, 5, 6] ∧ legalFace rolls usedCounts g = true
          then some (mkChoice rolls targets usedCounts mode g)
        else none := by
  unfold solve
  dsimp only
  rw [foldl_faceStep_choices]

theorem solve_bestFace_eq_selFold (rolls : List Nat) (targets : List Target)
    (usedCounts : Nat → Nat) (mode : SolverMode) :
    (solve rolls targets usedCounts mode).bestFace
      = ([1, 2, 3, 4, 5, 6].foldl
          (selStep (faceEval rolls targets usedCounts mode) (legalFace rolls usedCounts))
          (none, -1)).1 := by
  unfold solve
  dsimp only
  rw [faceStep_best]

theorem faceEval_nonneg (rolls : List Nat) (targets : List Target) (usedCounts : Nat → Nat)
    (mode : SolverMode) (f : Nat) : 0 ≤ faceEval rolls targets usedCounts mode f := by
  unfold faceEval
  dsimp only
  split_ifs
  · exact terminalPayoff_nonneg targets mode _ _
  · exact le_refl 0
  · exact value_nonneg targets mode _ _ _ _

/-! ### Correctness of the memoized evaluator -/

theorem probSuccess_zero (targets : List Target) (mode : SolverMode) (s m : Nat)
    (hs : ¬ isSuccess targets s m = true) : probSuccess targets mode 0 s m = 0 := by
  simp [probSuccess, value, hs]

/-- The pure recursion satisfies the one-step recurrence of the TypeScript
`probSuccess`. -/
theorem probSuccess_recurrence (targets : List Target) (mode : SolverMode)
    (d s m : Nat) (hs : ¬ isSuccess targets s m = true) (hd : d ≠ 0) :
    probSuccess targets mode d s m
      = (genCountVectors d).foldl
          (rollStep targets mode (probSuccess targets mode) d s m) 0 := by
  show value targets mode (d + 1) d s m = _
  simp only [value, hs, if_false, hd, Bool.false_eq_true]
  refine List.foldl_ext _ _ _ fun tv c _ => ?_
  refine rollStep_ext targets mode d s m (fun d' s' m' h0 hlt => ?_) tv c
  exact value_fuel_irrel targets mode d s' m' hlt (Nat.lt_succ_self d')

theorem memoFind_good (targets : List Target) {memo : Memo} (hg : MemoGood targets memo)
    {k : MemoKey} {v : ℚ} (h : memoFind memo k = some v) :
    v = probSuccess targets k.2.2.2 k.1 k.2.1 k.2.2.1 := by
  unfold memoFind at h
  obtain ⟨e, hfind, hev⟩ := Option.map_eq_some'.mp h
  have hmem := List.mem_of_find?_eq_some hfind
  have hpred := List.find?_some (p := fun e : MemoKey × ℚ => decide (e.1 = k)) hfind
  have hk : e.1 = k := by simpa using hpred
  have hgood := hg e hmem
  rw [hk] at hgood
  rw [← hev]
  exact hgood

theorem outcomeOfM_rel (targets : List Target) (mode : SolverMode)
    {FM : Nat → Nat → Nat → Memo → ℚ × Memo} (n score usedMask : Nat) (cnt face : Nat)
    (hcnt : cnt ≠ 0) {memo : Memo} (hg : MemoGood targets memo)
    (hFM : ∀ d' s' m' (memo' : Memo), 0 < d' → d' < n → MemoGood targets memo' →
      (FM d' s' m' memo').1 = probSuccess targets mode d' s' m'
        ∧ MemoGood targets (FM d' s' m' memo').2) :
    (outcomeOfM targets mode FM n score usedMask cnt face memo).1
        = outcomeOf targets mode (probSuccess targets mode) n score usedMask cnt face
      ∧ MemoGood targets (outcomeOfM targets mode FM n score usedMask cnt face memo).2 := by
  unfold outcomeOfM outcomeOf
  dsimp only
  split_ifs with h1 h2
  · exact ⟨rfl, hg⟩
  · exact ⟨rfl, hg⟩
  · exact hFM _ _ _ memo (by omega) (by omega) hg

theorem pickStepM_rel (targets : List Target) (mode : SolverMode)
    {FM : Nat → Nat → Nat → Memo → ℚ × Memo} {n score usedMask : Nat} (counts : List Nat)
    (hFM : ∀ d' s' m' (memo' : Memo), 0 < d' → d' < n → MemoGood targets memo' →
      (FM d' s' m' memo').1 = probSuccess targets mode d' s' m'
        ∧ MemoGood targets (FM d' s' m' memo').2)
    (st : Bool × ℚ × Memo) (stP : Bool × ℚ) (face : Nat) (hrel : StRel targets st stP) :
    StRel targets (pickStepM targets mode FM n score usedMask counts st face)
      (pickStep targets mode (probSuccess targets mode) n score usedMask counts stP face) := by
  obtain ⟨h1, h2, hg⟩ := hrel
  unfold pickStepM pickStep
  by_cases h0 : counts.getD (face - 1) 0 = 0
  · rw [if_pos h0, if_pos h0]
    exact ⟨h1, h2, hg⟩
  · rw [if_neg h0, if_neg h0]
    by_cases hm : (usedMask &&& (1 <<< (face - 1))) != 0
    · rw [if_pos hm, if_pos hm]
      exact ⟨h1, h2, hg⟩
    · rw [if_neg hm, if_neg hm]
      obtain ⟨ho1, ho2⟩ := outcomeOfM_rel targets mode n score usedMask
        (counts.getD (face - 1) 0) face h0 hg hFM
      refine ⟨rfl, ?_, ?_⟩
      · show (if st.2.1 < _ then _ else st.2.1) = (if stP.2 < _ then _ else stP.2)
        rw [h2, ho1]
      · exact ho2

theorem bestPickM_rel (targets : List Target) (mode : SolverMode)
    {FM : Nat → Nat → Nat → Memo → ℚ × Memo} (n score usedMask : Nat) (counts : List Nat)
    (hFM : ∀ d' s' m' (memo' : Memo), 0 < d' → d' < n → MemoGood targets memo' →
      (FM d' s' m' memo').1 = probSuccess targets mode d' s' m'
        ∧ MemoGood targets (FM d' s' m' memo').2)
    {memo : Memo} (hg : MemoGood targets memo) :
    StRel targets (bestPickM targets mode FM n score usedMask counts memo)
      (bestPick targets mode (probSuccess targets mode) n score usedMask counts) := by
  have main : ∀ (l : List Nat) (st : Bool × ℚ × Memo) (stP : Bool × ℚ),
      StRel targets st stP →
      StRel targets (l.foldl (pickStepM targets mode FM n score usedMask counts) st)
        (l.foldl (pickStep targets mode (probSuccess targets mode) n score usedMask counts)
          stP) := by
    intro l
    induction l with
    | nil => intro st stP h; exact h
    | cons a t ih =>
      intro st stP h
      exact ih _ _ (pickStepM_rel targets mode counts hFM st stP a h)
  exact main [1, 2, 3, 4, 5, 6] (false, 0, memo) (false, 0) ⟨rfl, rfl, hg⟩

theorem rollStepM_rel (targets : List Target) (mode : SolverMode)
    {FM : Nat → Nat → Nat → Memo → ℚ × Memo} {n score usedMask : Nat}
    (hFM : ∀ d' s' m' (memo' : Memo), 0 < d' → d' < n → MemoGood targets memo' →
      (FM d' s' m' memo').1 = probSuccess targets mode d' s' m'
        ∧ MemoGood targets (FM d' s' m' memo').2)
    (acc : ℚ × Memo) (accP : ℚ) (counts : List Nat)
    (h1 : acc.1 = accP) (hg : MemoGood targets acc.2) :
    (rollStepM targets mode FM n score usedMask acc counts).1
        = rollStep targets mode (probSuccess targets mode) n score usedMask accP counts
      ∧ MemoGood targets (rollStepM targets mode FM n score usedMask acc counts).2 := by
  obtain ⟨hb1, hb2, hbg⟩ := bestPickM_rel targets mode n score usedMask counts hFM hg
  unfold rollStepM rollStep
  dsimp only
  rw [hb1, h1, hb2]
  split_ifs
  · exact ⟨rfl, hbg⟩
  · exact ⟨rfl, hbg⟩

theorem foldl_rollStepM_rel (targets : List Target) (mode : SolverMode)
    {FM : Nat → Nat → Nat → Memo → ℚ × Memo} {n score usedMask : Nat}
    (hFM : ∀ d' s' m' (memo' : Memo), 0 < d' → d' < n → MemoGood targets memo' →
      (FM d' s' m' memo').1 = probSuccess targets mode d' s' m'
        ∧ MemoGood targets (FM d' s' m' memo').2) :
    ∀ (l : List (List Nat)) (acc : ℚ × Memo) (accP : ℚ),
      acc.1 = accP → MemoGood targets acc.2 →
      (l.foldl (rollStepM targets mode FM n score usedMask) acc).1
          = l.foldl (rollStep targets mode (probSuccess targets mode) n score usedMask) accP
        ∧ MemoGood targets (l.foldl (rollStepM targets mode FM n score usedMask) acc).2 := by
  intro l
  induction l with
  | nil => intro acc accP h1 hg; exact ⟨h1, hg⟩
  | cons c t ih =>
    intro acc accP h1 hg
    obtain ⟨hr1, hrg⟩ := rollStepM_rel targets mode hFM acc accP c h1 hg
    exact ih _ _ hr1 hrg

/-- Memoization is transparent: starting from any cache whose entries agree
with the pure recursion, the memoized evaluator returns the pure value and
preserves that property. -/
theorem valueM_correct (targets : List Target) (mode : SolverMode) :
    ∀ (fuel : Nat) {d s m : Nat} (memo : Memo), d < fuel → MemoGood targets memo →
      (valueM targets mode fuel d s m memo).1 = probSuccess targets mode d s m
        ∧ MemoGood targets (valueM targets mode fuel d s m memo).2 := by
  intro fuel
  induction fuel with
  | zero => intro d s m memo hd; omega
  | succ a ih =>
    intro d s m memo hd hg
    cases hfind : memoFind memo (d, s, m, mode) with
    | some v =>
      simp only [valueM, hfind]
      exact ⟨memoFind_good targets hg hfind, hg⟩
    | none =>
      simp only [valueM, hfind]
      by_cases hs : isSuccess targets s m = true
      · rw [if_pos hs]
        refine ⟨(probSuccess_terminal targets mode d s m hs).symm, ?_⟩
        intro e he
        rcases List.mem_cons.mp he with rfl | he'
        · exact (probSuccess_terminal targets mode d s m hs).symm
        · exact hg e he'
      · rw [if_neg hs]
        by_cases hd0 : d = 0
        · rw [if_pos hd0]
          subst hd0
          refine ⟨(probSuccess_zero targets mode s m hs).symm, ?_⟩
          intro e he
          rcases List.mem_cons.mp he with rfl | he'
          · exact (probSuccess_zero targets mode s m hs).symm
          · exact hg e he'
        · rw [if_neg hd0]
          dsimp only
          have hFM : ∀ d' s' m' (memo' : Memo), 0 < d' → d' < d → MemoGood targets memo' →
              (valueM targets mode a d' s' m' memo').1 = probSuccess targets mode d' s' m'
                ∧ MemoGood targets (valueM targets mode a d' s' m' memo').2 := by
            intro d' s' m' memo' _ hlt hg'
            exact ih memo' (by omega) hg'
          obtain ⟨hf1, hfg⟩ := foldl_rollStepM_rel targets mode hFM
            (genCountVectors d) (0, memo) 0 rfl hg
          have hres : ((genCountVectors d).foldl
              (rollStepM targets mode (valueM targets mode a) d s m) (0, memo)).1
              = probSuccess targets mode d s m := by
            rw [hf1, ← probSuccess_recurrence targets mode d s m hs hd0]
          refine ⟨hres, ?_⟩
          intro e he
          rcases List.mem_cons.mp he with rfl | he'
          · exact hres.symm ▸ rfl
          · exact hfg e he'

/-- Memoized counterpart of `faceEval` agrees with the pure one. -/
theorem faceEvalM_correct (rolls : List Nat) (targets : List Target)
    (usedCounts : Nat → Nat) (mode : SolverMode) (f : Nat) {memo : Memo}
    (hg : MemoGood targets memo) :
    (faceEvalM rolls targets usedCounts mode f memo).1
        = faceEval rolls targets usedCounts mode f
      ∧ MemoGood targets (faceEvalM rolls targets usedCounts mode f memo).2 := by
  unfold faceEvalM faceEval
  dsimp only
  split_ifs with h1 h2
  · exact ⟨rfl, hg⟩
  · exact ⟨rfl, hg⟩
  · exact valueM_correct targets mode _ memo (Nat.lt_succ_self _) hg

/-- The memoized `solve` (cache freshly allocated per call) computes exactly
the pure `solve`. -/
theorem solveM_eq_solve (rolls : List Nat) (targets : List Target)
    (usedCounts : Nat → Nat) (mode : SolverMode) :
    (solveM rolls targets usedCounts mode).1 = solve rolls targets usedCounts mode := by
  have main : ∀ (l : List Nat) (st : LoopState × Memo) (stP : LoopState),
      st.1 = stP → MemoGood targets st.2 →
      (l.foldl (faceStepM rolls targets usedCounts mode) st).1
          = l.foldl (faceStep rolls targets usedCounts mode) stP
        ∧ MemoGood targets (l.foldl (faceStepM rolls targets usedCounts mode) st).2 := by
    intro l
    induction l with
    | nil => intro st stP h1 hg; exact ⟨h1, hg⟩
    | cons a t ih =>
      intro st stP h1 hg
      refine ih _ _ ?_ ?_
      · unfold faceStepM faceStep
        by_cases hla : legalFace rolls usedCounts a = true
        · rw [if_pos hla, if_pos hla]
          obtain ⟨he1, _⟩ := faceEvalM_correct rolls targets usedCounts mode a hg
          dsimp only
          rw [he1, h1]
          rfl
        · rw [if_neg hla, if_neg hla]
          exact h1
      · unfold faceStepM
        by_cases hla : legalFace rolls usedCounts a = true
        · rw [if_pos hla]
          exact (faceEvalM_correct rolls targets usedCounts mode a hg).2
        · rw [if_neg hla]
          exact hg
  obtain ⟨h1, _⟩ := main [1, 2, 3, 4, 5, 6]
    (⟨fun _ => none, fun _ => none, (none, -1)⟩, []) ⟨fun _ => none, fun _ => none, (none, -1)⟩
    rfl (by intro e he; cases he)
  unfold solveM solve
  dsimp only
  rw [h1]

/-! ### Auxiliary facts for the claim theorems -/

theorem and_shift_ne_zero (x k : Nat) : (x &&& (1 <<< k) ≠ 0) ↔ x.testBit k = true := by
  rw [Nat.shiftLeft_eq, one_mul, Nat.and_two_pow]
  cases h : x.testBit k <;> simp [h, Nat.pow_eq_zero]

theorem foldl_or_testBit_mono (usedCounts : Nat → Nat) :
    ∀ (l : List Nat) (x : Nat) (k : Nat), x.testBit k = true →
      (l.foldl (fun m f => if 0 < usedCounts f then m ||| (1 <<< (f - 1)) else m) x).testBit k
        = true := by
  intro l
  induction l with
  | nil => intro x k h; exact h
  | cons a t ih =>
    intro x k h
    rw [List.foldl_cons]
    apply ih
    dsimp only
    split_ifs
    · rw [Nat.testBit_or, h]
      rfl
    · exact h

theorem baseUsedMask_testBit (usedCounts : Nat → Nat) (f : Nat)
    (hf : f ∈ [1, 2, 3, 4, 5, 6]) (hpos : 0 < usedCounts f) :
    (baseUsedMask usedCounts).testBit (f - 1) = true := by
  have hstep : ∀ (l : List Nat) (x : Nat), f ∈ l →
      (l.foldl (fun m g => if 0 < usedCounts g then m ||| (1 <<< (g - 1)) else m) x).testBit
        (f - 1) = true := by
    intro l
    induction l with
    | nil => intro x h; cases h
    | cons a t ih =>
      intro x h
      rcases List.mem_cons.mp h with rfl | hmem
      · rw [List.foldl_cons]
        apply foldl_or_testBit_mono
        dsimp only
        rw [if_pos hpos, Nat.testBit_or]
        have h1 : (1 <<< (f - 1)).testBit (f - 1) = true := by
          rw [Nat.shiftLeft_eq, one_mul, Nat.testBit_two_pow_self]
        rw [h1]
        exact Bool.or_true _
      · rw [List.foldl_cons]
        exact ih _ hmem
  exact hstep [1, 2, 3, 4, 5, 6] 0 hf

/-- A face with a positive used count is never a legal pick. -/
theorem legalFace_of_used (rolls : List Nat) (usedCounts : Nat → Nat) (f : Nat)
    (hf : f ∈ [1, 2, 3, 4, 5, 6]) (hpos : 0 < usedCounts f) :
    legalFace rolls usedCounts f = false := by
  unfold legalFace
  have hbit : (baseUsedMask usedCounts &&& (1 <<< (f - 1))) ≠ 0 :=
    (and_shift_ne_zero _ _).mpr (baseUsedMask_testBit usedCounts f hf hpos)
  cases h : (baseUsedMask usedCounts &&& (1 <<< (f - 1))) with
  | zero => exact absurd h hbit
  | succ k => simp [h]

/-- With an empty tile pool every per-face evaluation is zero. -/
theorem faceEval_nil (rolls : List Nat) (usedCounts : Nat → Nat) (mode : SolverMode)
    (f : Nat) : faceEval rolls [] usedCounts mode f = 0 := by
  unfold faceEval
  dsimp only
  rw [if_neg (by rw [isSuccess_nil]; simp)]
  split_ifs
  · rfl
  · unfold probSuccess
    exact value_nil_targets mode _ _ _ _

/-- `solve` depends on the roll only through the roll counter. -/
theorem solve_eq_of_rollCounter (rolls rolls' : List Nat) (targets : List Target)
    (usedCounts : Nat → Nat) (mode : SolverMode)
    (hrc : rollCounter rolls = rollCounter rolls') :
    solve rolls targets usedCounts mode = solve rolls' targets usedCounts mode := by
  have h1 : legalFace rolls usedCounts = legalFace rolls' usedCounts := by
    funext f
    unfold legalFace
    rw [hrc]
  have h2 : faceEval rolls targets usedCounts mode = faceEval rolls' targets usedCounts mode := by
    funext f
    unfold faceEval
    rw [hrc]
  have h3 : mkChoice rolls targets usedCounts mode = mkChoice rolls' targets usedCounts mode := by
    funext f
    unfold mkChoice mkChoiceOf
    rw [hrc, h2]
  have h4 : faceStep rolls targets usedCounts mode = faceStep rolls' targets usedCounts mode := by
    funext st f
    unfold faceStep
    rw [h1, h2, h3]
  unfold solve
  rw [h4]

/-- Entries outside 1..6 are silently dropped from the roll: `solve` behaves
exactly as if they were absent. -/
theorem solve_filter_roll (rolls : List Nat) (targets : List Target)
    (usedCounts : Nat → Nat) (mode : SolverMode) :
    solve rolls targets usedCounts mode
      = solve (rolls.filter fun r => 1 ≤ r && r ≤ 6) targets usedCounts mode := by
  apply solve_eq_of_rollCounter
  funext f
  unfold rollCounter
  rw [List.filter_filter]
  congr 1
  apply List.filter_congr
  intro a _
  cases h1 : (1 ≤ a : Bool) <;> cases h2 : (a ≤ 6 : Bool) <;> rfl

theorem single_le_sum_list : ∀ {l : List ℚ}, (∀ x ∈ l, 0 ≤ x) → ∀ {a : ℚ}, a ∈ l → a ≤ l.sum := by
  intro l
  induction l with
  | nil => intro _ a ha; cases ha
  | cons b t ih =>
    intro h a ha
    rw [List.sum_cons]
    have hb : 0 ≤ b := h b (List.mem_cons_self b t)
    have ht : 0 ≤ t.sum := List.sum_nonneg fun x hx => h x (List.mem_cons_of_mem b hx)
    rcases List.mem_cons.mp ha with rfl | hat
    · linarith
    · have hat2 := ih (fun x hx => h x (List.mem_cons_of_mem b hx)) hat
      linarith

/-! ### The claim theorems -/

section ClaimTheorems

set_option maxRecDepth 1000000

attribute [local semireducible] Rat.mul Rat.add Rat.inv Rat.sub

theorem probSuccess_C3_pos : 0 < probSuccess buildDefaultTargets .anyTile 5 15 32 := by
  have hs : ¬ isSuccess buildDefaultTargets 15 32 = true := by decide
  show 0 < value buildDefaultTargets .anyTile (5 + 1) 5 15 32
  rw [value_eq_sum buildDefaultTargets .anyTile 5 5 15 32 hs (by decide)]
  have hmem : ([0, 0, 0, 0, 5, 0] : List Nat) ∈ genCountVectors 5 := by decide
  have hterm : rollTerm buildDefaultTargets .anyTile (value buildDefaultTargets .anyTile 5)
      5 15 32 [0, 0, 0, 0, 5, 0] = 1 / 7776 := by decide
  have hnn : ∀ x ∈ (genCountVectors 5).map
      (rollTerm buildDefaultTargets .anyTile (value buildDefaultTargets .anyTile 5) 5 15 32),
      (0 : ℚ) ≤ x := by
    intro x hx
    obtain ⟨c, _, rfl⟩ := List.mem_map.mp hx
    exact rollTerm_nonneg _ _ _ _ _ _ c
  have hle := single_le_sum_list hnn (List.mem_map_of_mem _ hmem)
  rw [hterm] at hle
  have hpos : (0 : ℚ) < 1 / 7776 := by norm_num
  linarith

theorem probSuccess_C3_lt_one : probSuccess buildDefaultTargets .anyTile 5 15 32 < 1 := by
  have hs : ¬ isSuccess buildDefaultTargets 15 32 = true := by decide
  show value buildDefaultTargets .anyTile (5 + 1) 5 15 32 < 1
  rw [value_eq_sum buildDefaultTargets .anyTile 5 5 15 32 hs (by decide)]
  have hub : ∀ c ∈ genCountVectors 5,
      rollTerm buildDefaultTargets .anyTile (value buildDefaultTargets .anyTile 5) 5 15 32 c
        ≤ pRollQ 5 c := by
    intro c _
    apply rollTerm_le_pRollQ
    · intro d' s' m'
      exact value_le_one buildDefaultTargets 5 d' s' m'
    · intro s' m'
      simp [terminalPayoff]
  have hstrict : ∃ c ∈ genCountVectors 5,
      rollTerm buildDefaultTargets .anyTile (value buildDefaultTargets .anyTile 5) 5 15 32 c
        < pRollQ 5 c :=
    ⟨[5, 0, 0, 0, 0, 0], by decide, by decide⟩
  have hlt := List.sum_lt_sum _ _ hub hstrict
  rw [sum_pRollQ 5] at hlt
  exact hlt

/-- C1: for every `n` in 0..8 the enumerated distribution contains every
composition of `n` into six non-negative per-face counts exactly once
(`C(n+5,5)` entries), assigns each composition the multinomial probability
`n! / (c1!·…·c6!) / 6^n`, and the probabilities sum to exactly 1 over the
rationals. -/
theorem claim_C1 (n : Nat) (hn : n ≤ 8) :
    (∀ c : List Nat, c ∈ genCountVectors n ↔ c.length = 6 ∧ c.sum = n)
    ∧ (genCountVectors n).Nodup
    ∧ (genCountVectors n).length = Nat.choose (n + 5) 5
    ∧ (∀ c ∈ genCountVectors n,
        pRollQ n c = (Nat.factorial n : ℚ)
          / (c.map fun ci => (Nat.factorial ci : ℚ)).prod / (6 ^ n : ℚ))
    ∧ ((genCountVectors n).map (pRollQ n)).sum = 1 := by
  refine ⟨mem_genCountVectors n, nodup_genCountVectors n, ?_,
    fun c _ => pRollQ_eq n c, sum_pRollQ n⟩
  interval_cases n <;> decide

theorem claim_C1_witness :
    (2 : Nat) ≤ 8
    ∧ ((∀ c : List Nat, c ∈ genCountVectors 2 ↔ c.length = 6 ∧ c.sum = 2)
      ∧ (genCountVectors 2).Nodup
      ∧ (genCountVectors 2).length = Nat.choose (2 + 5) 5
      ∧ (∀ c ∈ genCountVectors 2,
          pRollQ 2 c = (Nat.factorial 2 : ℚ)
            / (c.map fun ci => (Nat.factorial ci : ℚ)).prod / (6 ^ 2 : ℚ))
      ∧ ((genCountVectors 2).map (pRollQ 2)).sum = 1) :=
  ⟨by decide, claim_C1 2 (by decide)⟩

/-- C2: in every claimable state the value function returns the terminal
payoff of the active mode regardless of the number of remaining dice: `1` in
probability mode and the points of the best eligible tile in expected-value
mode. -/
theorem claim_C2 (targets : List Target) (mode : SolverMode) (d s m : Nat)
    (hs : isSuccess targets s m = true) :
    probSuccess targets mode d s m = terminalPayoff targets mode s m
    ∧ (mode = .anyTile → probSuccess targets mode d s m = 1)
    ∧ (mode = .highestScore →
        probSuccess targets mode d s m = (getBestTileValue targets s m : ℚ)) := by
  refine ⟨probSuccess_terminal targets mode d s m hs, ?_, ?_⟩
  · rintro rfl
    rw [probSuccess_terminal targets _ d s m hs]
    rfl
  · rintro rfl
    rw [probSuccess_terminal targets _ d s m hs]
    rfl

theorem claim_C2_witness :
    isSuccess buildDefaultTargets 21 32 = true
    ∧ (probSuccess buildDefaultTargets .anyTile 7 21 32
          = terminalPayoff buildDefaultTargets .anyTile 21 32
      ∧ (SolverMode.anyTile = .anyTile →
          probSuccess buildDefaultTargets .anyTile 7 21 32 = 1)
      ∧ (SolverMode.anyTile = .highestScore →
          probSuccess buildDefaultTargets .anyTile 7 21 32
            = (getBestTileValue buildDefaultTargets 21 32 : ℚ))) :=
  ⟨by decide, claim_C2 buildDefaultTargets .anyTile 7 21 32 (by decide)⟩

/-- C3: ordinary faces score their face value, the worm scores 5 per die;
with the default pool, an empty used record and the roll (6,6,6), picking
face 6 yields immediate score 15, consumes 3 dice leaving 5, the state
(15, used = {6}) is not yet claimable, and its success probability with 5
dice lies strictly between 0 and 1. -/
theorem claim_C3 :
    (∀ f, 1 ≤ f → f ≤ 5 → faceValue f = f)
    ∧ faceValue 6 = 5
    ∧ (solve [6, 6, 6] buildDefaultTargets (fun _ => 0) .anyTile).choices 6
        = some { count := 3, immediateScore := 15, remainingDice := 5,
                 successProb := probSuccess buildDefaultTargets .anyTile 5 15 32,
                 expectedValue := none }
    ∧ isSuccess buildDefaultTargets 15 32 = false
    ∧ 0 < probSuccess buildDefaultTargets .anyTile 5 15 32
    ∧ probSuccess buildDefaultTargets .anyTile 5 15 32 < 1 := by
  refine ⟨?_, rfl, ?_, by decide, probSuccess_C3_pos, probSuccess_C3_lt_one⟩
  · intro f h1 h5
    unfold faceValue
    rw [if_neg (by omega)]
  · rw [solve_choices, if_pos ⟨by decide, by decide⟩]
    rfl

/-- C4: used faces are never selectable (no per-face entry, never the best
face); among legal faces the best face maximizes the evaluated value with
ties resolved toward the smallest face in the ascending 1→6 scan; with no
legal face the best face is `none` and the solver still returns a result. -/
theorem claim_C4 (rolls : List Nat) (targets : List Target) (usedCounts : Nat → Nat)
    (mode : SolverMode) :
    (∀ f, 0 < usedCounts f →
        (solve rolls targets usedCounts mode).choices f = none
        ∧ (solve rolls targets usedCounts mode).probs f = none
        ∧ (solve rolls targets usedCounts mode).bestFace ≠ some f)
    ∧ ((∀ f ∈ [1, 2, 3, 4, 5, 6], legalFace rolls usedCounts f = false) →
        (solve rolls targets usedCounts mode).bestFace = none)
    ∧ (∀ f₀ ∈ [1, 2, 3, 4, 5, 6], legalFace rolls usedCounts f₀ = true →
        ∃ f ∈ [1, 2, 3, 4, 5, 6], legalFace rolls usedCounts f = true
          ∧ (solve rolls targets usedCounts mode).bestFace = some f
          ∧ (∀ g ∈ [1, 2, 3, 4, 5, 6], legalFace rolls usedCounts g = true →
              faceEval rolls targets usedCounts mode g
                ≤ faceEval rolls targets usedCounts mode f)
          ∧ (∀ g ∈ [1, 2, 3, 4, 5, 6], legalFace rolls usedCounts g = true →
              faceEval rolls targets usedCounts mode g
                = faceEval rolls targets usedCounts mode f → f ≤ g)) := by
  obtain ⟨hge, hdom, hprov⟩ := selFold_spec (faceEval rolls targets usedCounts mode)
    (legalFace rolls usedCounts) [1, 2, 3, 4, 5, 6] (none, -1)
  have hbest := solve_bestFace_eq_selFold rolls targets usedCounts mode
  refine ⟨?_, ?_, ?_⟩
  · intro f hpos
    by_cases hf6 : f ∈ [1, 2, 3, 4, 5, 6]
    · have hleg : legalFace rolls usedCounts f = false :=
        legalFace_of_used rolls usedCounts f hf6 hpos
      refine ⟨?_, ?_, ?_⟩
      · rw [solve_choices, if_neg]
        rintro ⟨_, hc⟩
        rw [hleg] at hc
        cases hc
      · rw [solve_probs, if_neg]
        rintro ⟨_, hc⟩
        rw [hleg] at hc
        cases hc
      · rw [hbest]
        rcases hprov with heq | ⟨l₁, f', l₂, _, hlf', hr1, _⟩
        · rw [heq]
          simp
        · rw [hr1]
          intro hc
          have hff' : f' = f := by injection hc
          rw [hff', hleg] at hlf'
          cases hlf'
    · refine ⟨?_, ?_, ?_⟩
      · rw [solve_choices, if_neg fun hc => hf6 hc.1]
      · rw [solve_probs, if_neg fun hc => hf6 hc.1]
      · rw [hbest]
        rcases hprov with heq | ⟨l₁, f', l₂, hsplit, _, hr1, _⟩
        · rw [heq]
          simp
        · rw [hr1]
          intro hc
          have hff' : f' = f := by injection hc
          apply hf6
          rw [← hff', hsplit]
          exact List.mem_append_right l₁ (List.mem_cons_self f' l₂)
  · intro hall
    rw [hbest]
    rcases hprov with heq | ⟨l₁, f', l₂, hsplit, hlf', _⟩
    · rw [heq]
    · have : f' ∈ [1, 2, 3, 4, 5, 6] := by
        rw [hsplit]
        exact List.mem_append_right l₁ (List.mem_cons_self f' l₂)
      rw [hall f' this] at hlf'
      cases hlf'
  · intro f₀ h0mem h0legal
    rcases hprov with heq | ⟨l₁, f, l₂, hsplit, hlf, hr1, hr2, _, hm₁, hm₂⟩
    · have h1 := hdom f₀ h0mem h0legal
      rw [heq] at h1
      have h2 := faceEval_nonneg rolls targets usedCounts mode f₀
      norm_num at h1
      linarith
    · have hfmem : f ∈ [1, 2, 3, 4, 5, 6] := by
        rw [hsplit]
        exact List.mem_append_right l₁ (List.mem_cons_self f l₂)
      have hpw : List.Pairwise (· < ·) ([1, 2, 3, 4, 5, 6] : List Nat) := by decide
      rw [hsplit] at hpw
      have hl₂ : ∀ g ∈ l₂, f < g :=
        (List.pairwise_cons.mp (List.pairwise_append.mp hpw).2.1).1
      refine ⟨f, hfmem, hlf, by rw [hbest, hr1], ?_, ?_⟩
      · intro g hg hlg
        have := hdom g hg hlg
        rw [hr2] at this
        exact this
      · intro g hg hlg hev
        rw [hsplit] at hg
        rcases List.mem_append.mp hg with hg1 | hg2
        · exact absurd hev (ne_of_lt (hm₁ g hg1 hlg))
        · rcases List.mem_cons.mp hg2 with rfl | hg3
          · exact le_refl _
          · exact le_of_lt (hl₂ g hg3)

theorem claim_C4_witness :
    0 < (fun f => if f = 1 then (1 : Nat) else 0) 1
    ∧ legalFace [1, 2] (fun f => if f = 1 then (1 : Nat) else 0) 2 = true
    ∧ ((solve [1, 2] buildDefaultTargets (fun f => if f = 1 then (1 : Nat) else 0)
          .anyTile).choices 1 = none
      ∧ (solve [1, 2] buildDefaultTargets (fun f => if f = 1 then (1 : Nat) else 0)
          .anyTile).probs 1 = none
      ∧ (solve [1, 2] buildDefaultTargets (fun f => if f = 1 then (1 : Nat) else 0)
          .anyTile).bestFace ≠ some 1) :=
  ⟨by decide, by decide,
    (claim_C4 [1, 2] buildDefaultTargets (fun f => if f = 1 then (1 : Nat) else 0)
      .anyTile).1 1 (by decide)⟩

/-- C5: `canSucceed` holds iff the eligible-tile list is non-empty and the
worm bit is set in the used mask; with an empty tile pool it is false
everywhere, the value function is identically zero, and the solver returns
zero-valued per-face results instead of failing. -/
theorem claim_C5 (targets : List Target) :
    (∀ s m, isSuccess targets s m = true ↔
        ((findEligibleTiles s targets).length ≠ 0 ∧ (m &&& (1 <<< 5)) ≠ 0))
    ∧ (∀ s m, isSuccess [] s m = false)
    ∧ (∀ (mode : SolverMode) (d s m : Nat), probSuccess [] mode d s m = 0)
    ∧ (∀ (rolls : List Nat) (usedCounts : Nat → Nat) (mode : SolverMode) (f : Nat) (v : ℚ),
        (solve rolls [] usedCounts mode).probs f = some v → v = 0) := by
  refine ⟨?_, isSuccess_nil, fun mode d s m => value_nil_targets mode _ _ _ _, ?_⟩
  · intro s m
    unfold isSuccess hasWorm
    cases hb : ((m &&& (1 <<< 5)) != 0) with
    | false =>
      have hz : m &&& (1 <<< 5) = 0 := by simpa using hb
      rw [hz]
      simp
    | true =>
      have hnz : m &&& (1 <<< 5) ≠ 0 := by simpa using hb
      have hnz32 : m &&& 32 ≠ 0 := by simpa using hnz
      simp only [hb]
      simp [hnz32, Nat.pos_iff_ne_zero]
  · intro rolls usedCounts mode f v hv
    rw [solve_probs] at hv
    by_cases hcond : f ∈ [1, 2, 3, 4, 5, 6] ∧ legalFace rolls usedCounts f = true
    · rw [if_pos hcond] at hv
      have := faceEval_nil rolls usedCounts mode f
      rw [this] at hv
      injection hv with hv0
      exact hv0.symm
    · rw [if_neg hcond] at hv
      cases hv

theorem claim_C5_witness :
    (isSuccess buildDefaultTargets 25 32 = true ↔
        ((findEligibleTiles 25 buildDefaultTargets).length ≠ 0 ∧ (32 &&& (1 <<< 5)) ≠ 0))
    ∧ ((solve [2] [] (fun f => if f = 1 then (7 : Nat) else 0) .anyTile).probs 2 = some 0)
    ∧ (0 : ℚ) = 0 :=
  ⟨(claim_C5 buildDefaultTargets).1 25 32, by decide,
    (claim_C5 buildDefaultTargets).2.2.2 [2] (fun f => if f = 1 then (7 : Nat) else 0)
      .anyTile 2 0 (by decide)⟩

/-- C6 as stated is false; counterexample: a non-overshoot tile makes the
eligible list shrink as the score rises past its threshold, and in
expected-value mode the value at score 20 with two dice (49/36) exceeds the
value 1 at the higher score 21, default pool, worm banked. -/
theorem claim_C6_counterexample :
    ((21 : Nat) ≤ 22
      ∧ (findEligibleTiles 22 [{ value := 21, pts := 1, canOvershoot := false }]).length
          < (findEligibleTiles 21 [{ value := 21, pts := 1, canOvershoot := false }]).length)
    ∧ ((20 : Nat) ≤ 21
      ∧ probSuccess buildDefaultTargets .highestScore 2 21 32
          < probSuccess buildDefaultTargets .highestScore 2 20 32) := by
  exact ⟨⟨by norm_num, by decide⟩, ⟨by norm_num, by decide⟩⟩

/-- C6 amended: for tile pools in which every tile allows overshoot,
increasing the score never shrinks the eligible-tile list; and in
probability (any-tile) mode it never decreases the value function.  (In
expected-value mode the value can decrease, and with non-overshoot tiles the
eligible list can shrink — see the counterexample.) -/
theorem claim_C6_amended (targets : List Target)
    (hov : ∀ t ∈ targets, t.canOvershoot = true) {s s' : Nat} (hss : s ≤ s') :
    (findEligibleTiles s targets).length ≤ (findEligibleTiles s' targets).length
    ∧ ∀ d m, probSuccess targets .anyTile d s m ≤ probSuccess targets .anyTile d s' m :=
  ⟨eligLen_mono targets hov hss,
    fun d m => value_mono_score targets hov (d + 1) hss⟩

theorem claim_C6_witness :
    (∀ t ∈ buildDefaultTargets, t.canOvershoot = true)
    ∧ (20 : Nat) ≤ 25
    ∧ ((findEligibleTiles 20 buildDefaultTargets).length
          ≤ (findEligibleTiles 25 buildDefaultTargets).length
      ∧ ∀ d m, probSuccess buildDefaultTargets .anyTile d 20 m
          ≤ probSuccess buildDefaultTargets .anyTile d 25 m) :=
  ⟨by decide, by decide, claim_C6_amended buildDefaultTargets (by decide) (by decide)⟩

/-- C7 as stated is false: at score 36 every tile of the default pool is
eligible (all sixteen allow overshoot), so `eligibleTiles` does not return
exactly the threshold-36 tile. -/
theorem claim_C7_counterexample :
    findEligibleTiles 36 buildDefaultTargets
        ≠ [{ value := 36, pts := 4, canOvershoot := true }]
    ∧ (findEligibleTiles 36 buildDefaultTargets).length = 16 :=
  ⟨by decide, by decide⟩

/-- C7 amended: with the worm banked and score 36, `canSucceed` is true,
`eligibleTiles` returns all sixteen tiles headed by the threshold-36 tile,
and the expected-value mode value is exactly that tile's 4 points for every
`diceRemaining` including 0. -/
theorem claim_C7_amended (d m : Nat) (hm : m &&& (1 <<< 5) ≠ 0) :
    isSuccess buildDefaultTargets 36 m = true
    ∧ (findEligibleTiles 36 buildDefaultTargets).length = 16
    ∧ (findEligibleTiles 36 buildDefaultTargets).head?
        = some { value := 36, pts := 4, canOvershoot := true }
    ∧ probSuccess buildDefaultTargets .highestScore d 36 m = 4 := by
  have hw : hasWorm m = true := by
    unfold hasWorm
    simpa using hm
  have hsucc : isSuccess buildDefaultTargets 36 m = true := by
    unfold isSuccess
    rw [if_pos hw]
    decide
  refine ⟨hsucc, by decide, by decide, ?_⟩
  rw [probSuccess_terminal buildDefaultTargets .highestScore d 36 m hsucc]
  show (getBestTileValue buildDefaultTargets 36 m : ℚ) = 4
  unfold getBestTileValue
  rw [if_pos hw]
  have h4 : (findEligibleTiles 36 buildDefaultTargets).head?
      = some { value := 36, pts := 4, canOvershoot := true } := by decide
  rcases hE : findEligibleTiles 36 buildDefaultTargets with _ | ⟨t, rest⟩
  · rw [hE] at h4
    cases h4
  · rw [hE] at h4
    rw [List.head?_cons] at h4
    injection h4 with h4
    rw [h4]
    norm_num

theorem claim_C7_amended_witness :
    (32 : Nat) &&& (1 <<< 5) ≠ 0
    ∧ (isSuccess buildDefaultTargets 36 32 = true
      ∧ (findEligibleTiles 36 buildDefaultTargets).length = 16
      ∧ (findEligibleTiles 36 buildDefaultTargets).head?
          = some { value := 36, pts := 4, canOvershoot := true }
      ∧ probSuccess buildDefaultTargets .highestScore 0 36 32 = 4) :=
  ⟨by decide, claim_C7_amended 0 32 (by decide)⟩

/-- C8 as stated is false: invalid inputs are not rejected.  Roll entries
outside 1..6 are silently dropped (the call behaves as on the filtered
roll), and a roll referencing nine dice is processed normally, returning a
zero-probability recommendation instead of an error. -/
theorem claim_C8_counterexample :
    solve [0, 7, 9] buildDefaultTargets (fun _ => 0) .anyTile
        = solve [] buildDefaultTargets (fun _ => 0) .anyTile
    ∧ (solve [1, 1, 1, 1, 1, 1, 1, 1, 1] buildDefaultTargets (fun _ => 0) .anyTile).bestFace
        = some 1
    ∧ (solve [1, 1, 1, 1, 1, 1, 1, 1, 1] buildDefaultTargets (fun _ => 0) .anyTile).probs 1
        = some 0 := by
  refine ⟨?_, by decide, by decide⟩
  have h := solve_filter_roll [0, 7, 9] buildDefaultTargets (fun _ => 0) .anyTile
  have hfil : (([0, 7, 9] : List Nat).filter fun r => 1 ≤ r && r ≤ 6) = [] := rfl
  rw [hfil] at h
  exact h

/-- C8 amended: the Recommendation Builder performs no validation: entries
outside 1..6 are silently removed from the roll and the computation proceeds
normally; no error value exists in the interface. -/
theorem claim_C8_amended (rolls : List Nat) (targets : List Target)
    (usedCounts : Nat → Nat) (mode : SolverMode) :
    solve rolls targets usedCounts mode
      = solve (rolls.filter fun r => 1 ≤ r && r ≤ 6) targets usedCounts mode :=
  solve_filter_roll rolls targets usedCounts mode

/-- C9: the memoization cache is allocated afresh inside each top-level
call; the memoized solver (cache threaded explicitly, starting empty)
returns exactly the pure function of the arguments, so identical calls give
identical output and no state crosses calls with different tile pools. -/
theorem claim_C9 (rolls : List Nat) (targets : List Target) (usedCounts : Nat → Nat)
    (mode : SolverMode) :
    (solveM rolls targets usedCounts mode).1 = solve rolls targets usedCounts mode :=
  solveM_eq_solve rolls targets usedCounts mode

/-- C10: in highest-score mode the reported `successProb` of a legal face is
not a probability: it is 1 exactly when the computed expected value is
positive and 0 otherwise, while the true expected value is reported in
`expectedValue`. -/
theorem claim_C10 (rolls : List Nat) (targets : List Target) (usedCounts : Nat → Nat)
    (f : Nat) (hf : f ∈ [1, 2, 3, 4, 5, 6]) (hl : legalFace rolls usedCounts f = true) :
    ∃ c, (solve rolls targets usedCounts .highestScore).choices f = some c
      ∧ c.successProb
          = (if 0 < faceEval rolls targets usedCounts .highestScore f then (1 : ℚ) else 0)
      ∧ c.expectedValue = some (faceEval rolls targets usedCounts .highestScore f) := by
  refine ⟨mkChoice rolls targets usedCounts .highestScore f, ?_, rfl, rfl⟩
  rw [solve_choices, if_pos ⟨hf, hl⟩]

theorem claim_C10_witness :
    (6 : Nat) ∈ [1, 2, 3, 4, 5, 6]
    ∧ legalFace [6, 6, 6] (fun _ => 0) 6 = true
    ∧ ∃ c, (solve [6, 6, 6] buildDefaultTargets (fun _ => 0) .highestScore).choices 6 = some c
      ∧ c.successProb = (if 0 < faceEval [6, 6, 6] buildDefaultTargets (fun _ => 0)
          .highestScore 6 then (1 : ℚ) else 0)
      ∧ c.expectedValue
          = some (faceEval [6, 6, 6] buildDefaultTargets (fun _ => 0) .highestScore 6) :=
  ⟨by decide, by decide,
    claim_C10 [6, 6, 6] buildDefaultTargets (fun _ => 0) 6 (by decide) (by decide)⟩

end ClaimTheorems

end Pickomino
